import Mathlib

/-!
# Verification of the CFR engine in `game_theory`

This file gives a shallow embedding of the counterfactual-regret-minimization
code of the repository (src/kuhn.cc, src/dudo.cc, src/war.cc) and proves or
refutes the frozen claims about it.

Modelling conventions:
* C++ `double` arithmetic is modelled with `ℚ` (the code only performs field
  operations, so the real-number behaviour is captured exactly up to rounding).
* C++ `std::string` is modelled with `List Char`; `std::vector` with `List`.
* The `unordered_map<string, Node*>` store is modelled with an association
  list in which an update shadows the previous binding, so that lookups agree
  with the map semantics.
* The recursive traversal `Solver::cfr` is not structurally terminating (its
  argument is a growing history string), so it is embedded with an explicit
  fuel parameter; `none` means the C++ computation has not returned within
  the given recursion depth.
* A C++ `throw` and the undefined behaviour of dereferencing a null `Node*`
  are both modelled by `Option`, returning `none`.
-/

namespace GameTheory

/-- A regret node.  Embeds the `Node` class of src/kuhn.cc (lines 65-146) and
src/dudo.cc (lines 27-107): the two classes have identical fields and method
bodies except that the Kuhn node always has `NUM_ACTIONS = 2` actions while
the Dudo node stores its `n_actions` (set once, in the constructor).  We keep
the explicit `n_actions` field; the Kuhn constructor sets it to 2. -/
structure Node where
  info_set : List Char
  n_actions : ℕ
  regret_sum : List ℚ
  strategy : List ℚ
  strategy_sum : List ℚ
deriving Repr, DecidableEq

/-- `Node::get_strategy(double p)` (kuhn.cc lines 111-125, dudo.cc lines
72-86): regret matching.  Each strategy entry becomes `max(regret_sum[a], 0)`;
if the sum `norm` of these is positive each entry is divided by `norm`,
otherwise every entry becomes `1 / n_actions`; then `strategy_sum[a] +=
p * strategy[a]`.  Returns the new strategy together with the mutated node. -/
def get_strategy (p : ℚ) (nd : Node) : List ℚ × Node :=
  let pos := nd.regret_sum.map (fun r => max r 0)
  let norm := pos.sum
  let strat :=
    if 0 < norm then pos.map (fun x => x / norm)
    else List.replicate nd.n_actions (1 / (nd.n_actions : ℚ))
  let ssum := List.zipWith (fun s x => s + p * x) nd.strategy_sum strat
  (strat, { nd with strategy := strat, strategy_sum := ssum })

/-- `Node::update_regret(int a, double v)` (kuhn.cc lines 128-130, dudo.cc
lines 89-91): `regret_sum[a] += v`. -/
def update_regret (a : ℕ) (v : ℚ) (nd : Node) : Node :=
  { nd with regret_sum := nd.regret_sum.set a (nd.regret_sum.getD a 0 + v) }

/-- `Node::get_average_strategy()` (kuhn.cc lines 133-145, dudo.cc lines
94-106, first `n_actions` entries): each entry of `strategy_sum` divided by
the total mass if that total is positive, otherwise uniform. -/
def get_average_strategy (nd : Node) : List ℚ :=
  let norm := nd.strategy_sum.sum
  if 0 < norm then nd.strategy_sum.map (fun x => x / norm)
  else List.replicate nd.n_actions (1 / (nd.n_actions : ℚ))

/-- A call of the method `get_average_strategy` viewed as a state transformer
on the node: the method reads but never writes the node's fields, so the node
component of the result is unchanged. -/
def get_average_strategy_call (nd : Node) : List ℚ × Node :=
  (get_average_strategy nd, nd)

/-- The information-set store `unordered_map<string, Node*> tree`, as an
association list where the most recent binding for a key wins. -/
abbrev Tree := List (List Char × Node)

/-- Lookup in the store (the `tree.count` / `tree[info_set]` reads). -/
def tree_find (t : Tree) (info : List Char) : Option Node :=
  match t with
  | [] => none
  | (k, nd) :: rest => if k = info then some nd else tree_find rest info

/-- `Solver::get_node` (kuhn.cc lines 153-159, dudo.cc lines 114-120): return
the stored node if the key exists, otherwise create one (with the supplied
per-game constructor) and store it. -/
def get_node (mk : List Char → Node) (t : Tree) (info : List Char) : Node × Tree :=
  match tree_find t info with
  | some nd => (nd, t)
  | none => (mk info, (info, mk info) :: t)

/-- Writing through the `Node*` held by the traversal: the map binding for
the node's key is replaced (the new binding shadows the old one). -/
def set_node (t : Tree) (info : List Char) (nd : Node) : Tree :=
  (info, nd) :: t

/-- The per-action loop of `Solver::cfr` (kuhn.cc lines 181-191, dudo.cc
lines 143-153), shared by the games.  For each pair of an action suffix and
its probability `strategy[a]`, recurse on the extended history with the
acting player's reach multiplied by `strategy[a]`, and record the negated
child utility.  The state threads left to right, exactly as the C++ loop
mutates the map. -/
def cfr_actions (recurse : List Char → ℚ → ℚ → Tree → Option (ℚ × Tree))
    (player_idx : ℕ) (h : List Char) (p1 p2 : ℚ) :
    List (List Char × ℚ) → Tree → Option (List ℚ × Tree)
  | [], t => some ([], t)
  | (act, sa) :: rest, t =>
    match recurse (h ++ act) (if player_idx = 0 then p1 * sa else p1)
        (if player_idx = 0 then p2 else p2 * sa) t with
    | none => none
    | some vt =>
      match cfr_actions recurse player_idx h p1 p2 rest vt.2 with
      | none => none
      | some ut => some ((-vt.1) :: ut.1, ut.2)

/-- The regret-update loop of `Solver::cfr` (kuhn.cc lines 194-197, dudo.cc
lines 156-159): for every action `a`, `update_regret(a, reach * (util[a] -
node_util))`. -/
def update_regrets (reach node_util : ℚ) : List ℚ → ℕ → Node → Node
  | [], _, nd => nd
  | u :: rest, a, nd =>
    update_regrets reach node_util rest (a + 1) (update_regret a (reach * (u - node_util)) nd)

/-- The reach probability of player `i` (player indices are 0 and 1; `p1` is
the reach probability of player 1, who has index 0).  Used to phrase the
specification's step 4 of the traversal: the strategy computation receives
the reach probability of the player *not* about to act. -/
def reach_of (i : ℕ) (p1 p2 : ℚ) : ℚ :=
  if i = 0 then p1 else p2

namespace Kuhn

/-- `ACTIONS = "cb"` (kuhn.cc line 61). -/
def ACTIONS : List Char := ['c', 'b']

/-- `NUM_ACTIONS` (kuhn.cc line 62). -/
def NUM_ACTIONS : ℕ := ACTIONS.length

/-- `TERMINAL_HISTORIES` (kuhn.cc line 63). -/
def TERMINAL_HISTORIES : List (List Char) :=
  [['c', 'c'], ['b', 'b'], ['b', 'c'], ['c', 'b', 'c'], ['c', 'b', 'b']]

/-- The `Node(string info_set)` constructor (kuhn.cc lines 70-76): all
arrays sized `NUM_ACTIONS`, regrets and strategy sums zero, strategy
uniform. -/
def mkNode (info : List Char) : Node :=
  { info_set := info
    n_actions := NUM_ACTIONS
    regret_sum := List.replicate NUM_ACTIONS 0
    strategy := List.replicate NUM_ACTIONS (1 / (NUM_ACTIONS : ℚ))
    strategy_sum := List.replicate NUM_ACTIONS 0 }

/-- `Node::is_terminal` (kuhn.cc lines 79-83): drop the leading card
character and test membership in `TERMINAL_HISTORIES`. -/
def is_terminal (info : List Char) : Bool :=
  decide ((info.drop 1) ∈ TERMINAL_HISTORIES)

/-- The body of `Node::get_utility` (kuhn.cc lines 90-106), as a function of
the betting history `h` (the info set minus its card character) and the card
vector: `1` if the history ends in bet-fold (`"bc"`), otherwise a showdown
worth 1 after check-check and 2 otherwise, won by the acting player iff
`cards[t % 2] > cards[1 - t % 2]`. -/
def utility_raw (cards : List ℕ) (h : List Char) : ℚ :=
  let t := h.length
  if h.drop (t - 2) = ['b', 'c'] then 1
  else
    let c1 := cards.getD (t % 2) 0
    let c2 := cards.getD (1 - t % 2) 0
    if h = ['c', 'c'] then (if c1 > c2 then 1 else -1)
    else (if c1 > c2 then 2 else -2)

/-- `Node::get_utility` (kuhn.cc lines 86-107): throws (modelled `none`) on a
non-terminal node, otherwise returns the terminal payoff for the acting
player. -/
def get_utility (cards : List ℕ) (info : List Char) : Option ℚ :=
  if is_terminal info then some (utility_raw cards (info.drop 1)) else none

/-- `Solver::cfr` (kuhn.cc lines 162-200), with an explicit fuel parameter
bounding the recursion depth (`none` means the recursion did not return
within the fuel).  The acting player is `h.length % 2`, the info-set key is
the acting player's card digit prepended to the history, the node is fetched
or created, terminal states return `get_utility`, otherwise the node's
strategy is refreshed with `reach_p = (player_idx == 0) ? p2 : p1`, the
actions are traversed, and the regrets are updated with
`reach_p * (util[a] - node_util)`. -/
def cfr : ℕ → List ℕ → List Char → ℚ → ℚ → Tree → Option (ℚ × Tree)
  | 0, _, _, _, _, _ => none
  | fuel + 1, cards, h, p1, p2, t =>
    let player_idx := h.length % 2
    let info := Nat.digitChar (cards.getD player_idx 0) :: h
    let node := (get_node mkNode t info).1
    let t1 := (get_node mkNode t info).2
    if is_terminal info then
      match get_utility cards info with
      | some u => some (u, t1)
      | none => none
    else
      let reach_p := if player_idx = 0 then p2 else p1
      let strategy := (get_strategy reach_p node).1
      let t2 := set_node t1 info (get_strategy reach_p node).2
      match cfr_actions (fun h2 q1 q2 t0 => cfr fuel cards h2 q1 q2 t0) player_idx h p1 p2
          (List.zip (ACTIONS.map (fun c => [c])) strategy) t2 with
      | none => none
      | some ut =>
        let node_util := (List.zipWith (fun x y => x * y) strategy ut.1).sum
        let node2 := update_regrets reach_p node_util ut.1 0
          ((tree_find ut.2 info).getD (get_strategy reach_p node).2)
        some (node_util, set_node ut.2 info node2)

/-- Modelled from the spec: the traversal of section 4.3 with steps 4 and 7
written in the specification's words — the strategy computation receives the
reach probability of the player NOT about to act (`reach_of (1 - player_idx)`),
and each action's regret update adds that same opponent reach probability
times `util[a] - node_util`, where `node_util` is the strategy-weighted sum
of the negated child utilities.  Everything else is as in `cfr`. -/
def cfr_spec : ℕ → List ℕ → List Char → ℚ → ℚ → Tree → Option (ℚ × Tree)
  | 0, _, _, _, _, _ => none
  | fuel + 1, cards, h, p1, p2, t =>
    let player_idx := h.length % 2
    let info := Nat.digitChar (cards.getD player_idx 0) :: h
    let node := (get_node mkNode t info).1
    let t1 := (get_node mkNode t info).2
    if is_terminal info then
      match get_utility cards info with
      | some u => some (u, t1)
      | none => none
    else
      let opp_reach := reach_of (1 - player_idx) p1 p2
      let strategy := (get_strategy opp_reach node).1
      let t2 := set_node t1 info (get_strategy opp_reach node).2
      match cfr_actions (fun h2 q1 q2 t0 => cfr_spec fuel cards h2 q1 q2 t0) player_idx h p1 p2
          (List.zip (ACTIONS.map (fun c => [c])) strategy) t2 with
      | none => none
      | some ut =>
        let node_util := (List.zipWith (fun x y => x * y) strategy ut.1).sum
        let node2 := update_regrets opp_reach node_util ut.1 0
          ((tree_find ut.2 info).getD (get_strategy opp_reach node).2)
        some (node_util, set_node ut.2 info node2)

/-- `std::next_permutation` on a three-element vector: the next lexicographic
permutation, wrapping around to the sorted order (the classic pivot/swap/
reverse algorithm specialised to length 3, which is the only length the Kuhn
driver uses). -/
def next_permutation (l : List ℕ) : List ℕ :=
  match l with
  | [a, b, c] =>
    if b < c then [a, c, b]
    else if a < b then (if a < c then [c, a, b] else [b, c, a])
    else [c, b, a]
  | other => other

/-- The outcome of `Solver::train` (kuhn.cc lines 274-285).  The C++ function
has return type `void`: `returned` is the value handed back to the caller,
which is always `none`; `util` is the function's local accumulator (the sum
of the root traversal values), which the source discards; `tree` is the
populated information-set store. -/
structure TrainResult where
  returned : Option ℚ
  util : ℚ
  tree : Tree
deriving Repr, DecidableEq

/-- The training loop of `Solver::train`: `iters` times, add `cfr(cards, "",
1, 1)` into `util` and advance `cards` with `next_permutation`. -/
def train_loop (fuel : ℕ) : ℕ → List ℕ → ℚ → Tree → Option (ℚ × Tree)
  | 0, _, util, t => some (util, t)
  | iters + 1, cards, util, t =>
    match cfr fuel cards [] 1 1 t with
    | none => none
    | some vt => train_loop fuel iters (next_permutation cards) (util + vt.1) vt.2

/-- `Solver::train(int T)` (kuhn.cc lines 274-285): starting from
`cards = {1,2,3}` and an empty store, run `T + 6` iterations ("we do 6
permutations to guarantee that we cover all possible states at least once").
The function returns nothing (`returned = none`); the accumulated `util` is
discarded by the source. -/
def train (fuel T : ℕ) : Option TrainResult :=
  (train_loop fuel (T + 6) [1, 2, 3] 0 []).map (fun ut => ⟨none, ut.1, ut.2⟩)

/-- The deck and store state just before training iteration `i` of
`Solver::train` (iteration 0 starts from `{1,2,3}` and the empty store). -/
def run_state (fuel : ℕ) : ℕ → Option (List ℕ × Tree)
  | 0 => some ([1, 2, 3], [])
  | i + 1 =>
    match run_state fuel i with
    | none => none
    | some ct =>
      match cfr fuel ct.1 [] 1 1 ct.2 with
      | none => none
      | some vt => some (next_permutation ct.1, vt.2)

/-- The root utility computed by training iteration `i` of `Solver::train`. -/
def iter_value (fuel i : ℕ) : Option ℚ :=
  match run_state fuel i with
  | none => none
  | some ct => (cfr fuel ct.1 [] 1 1 ct.2).map (fun vt => vt.1)

/-- Syntactic termination certificate for the Kuhn traversal: every betting
line from `h` reaches a terminal history within `fuel` more actions. -/
def depth_ok : ℕ → List Char → Bool
  | 0, h => decide (h ∈ TERMINAL_HISTORIES)
  | fuel + 1, h =>
    decide (h ∈ TERMINAL_HISTORIES) || ACTIONS.all (fun c => depth_ok fuel (h ++ [c]))

/-- `Game::get_bot_action` (kuhn.cc lines 465-474), the part that obtains the
bot's mixed strategy.  `this->solution[this->bot_card_string + h]` is an
`unordered_map::operator[]` access: when the key is absent it
default-inserts a null `Node*`, and `node->get_average_strategy()` then
dereferences that null pointer — undefined behaviour, modelled as `none`. -/
def get_bot_action_strategy (solution : Tree) (bot_card : Char) (h : List Char) :
    Option (List ℚ) :=
  (tree_find solution (bot_card :: h)).map get_average_strategy

/-- The perspective-`p` payoff of a completed Kuhn hand, read off the result
table documented in kuhn.cc lines 26-36: check-check and bet-bet (and
check-bet-bet) are showdowns worth 1 resp. 2 to the player with the higher
card; bet-check gives 1 to player 1 (who bet); check-bet-check gives 1 to
player 2 (who bet).  Player indices are 0 (player 1) and 1 (player 2). -/
def doc_payoff (p : ℕ) (cards : List ℕ) (h : List Char) : ℚ :=
  let cp := cards.getD (p % 2) 0
  let co := cards.getD (1 - p % 2) 0
  if h = ['c', 'c'] then (if cp > co then 1 else -1)
  else if h = ['b', 'b'] then (if cp > co then 2 else -2)
  else if h = ['c', 'b', 'b'] then (if cp > co then 2 else -2)
  else if h = ['b', 'c'] then (if p % 2 = 0 then 1 else -1)
  else if h = ['c', 'b', 'c'] then (if p % 2 = 1 then 1 else -1)
  else 0

end Kuhn

namespace Dudo

/-- `NUM_ACTIONS = 2 * NUM_SIDES + 1 = 13` (dudo.cc line 10). -/
def NUM_ACTIONS : ℕ := 13

/-- `DUDO = NUM_ACTIONS - 1 = 12` (dudo.cc line 11). -/
def DUDO : ℕ := 12

/-- `NUM_CLAIMS` (dudo.cc lines 12-13), each entry a one-character string. -/
def NUM_CLAIMS : List Char :=
  ['1', '1', '1', '1', '1', '1', '2', '2', '2', '2', '2', '2']

/-- `CLAIM_RANKS` (dudo.cc lines 14-15). -/
def CLAIM_RANKS : List Char :=
  ['2', '3', '4', '5', '6', '1', '2', '3', '4', '5', '6', '1']

/-- The claim strings, as (count character, rank character) pairs. -/
def claim_pairs : List (Char × Char) := NUM_CLAIMS.zip CLAIM_RANKS

/-- The `Node(string info_set)` constructor (dudo.cc lines 33-40):
`n_actions` is `NUM_ACTIONS` when the info-set string has length at least 4
and `NUM_ACTIONS - 1` otherwise; arrays sized `n_actions`, regrets and
strategy sums zero, strategy uniform. -/
def mkNode (info : List Char) : Node :=
  let n := if 4 ≤ info.length then NUM_ACTIONS else NUM_ACTIONS - 1
  { info_set := info
    n_actions := n
    regret_sum := List.replicate n 0
    strategy := List.replicate n (1 / (n : ℚ))
    strategy_sum := List.replicate n 0 }

/-- `Node::is_terminal` (dudo.cc lines 42-44): the info set ends in `'D'`. -/
def is_terminal (info : List Char) : Bool :=
  decide (info.getLast? = some 'D')

/-- The body of `Node::get_utility` (dudo.cc lines 50-65).  Note that
`info_set[h - 4]` and `info_set[h - 2]` are `char`s assigned to `int`s, so
`n` and `r` are raw ASCII character codes, and `rank_count` compares the
dice values (1-6) against the code `r`. -/
def utility_raw (dice : List ℕ) (info : List Char) : ℤ :=
  let h := info.length
  let n : ℤ := ((info.getD (h - 4) ' ').toNat : ℤ)
  let r : ℤ := ((info.getD (h - 2) ' ').toNat : ℤ)
  let rank_count : ℤ :=
    (if (dice.getD 0 0 : ℤ) = r ∨ dice.getD 0 0 = 1 then 1 else 0) +
    (if (dice.getD 1 0 : ℤ) = r ∨ dice.getD 1 0 = 1 then 1 else 0)
  let diff := rank_count - n
  if 0 < diff then diff else if diff < 0 then -diff else 1

/-- `Node::get_utility` (dudo.cc lines 46-66): throws (modelled `none`) on a
non-terminal node, otherwise the payoff with respect to the challenged
player ("values are all wrt to challenged player", dudo.cc line 56). -/
def get_utility (dice : List ℕ) (info : List Char) : Option ℤ :=
  if is_terminal info then some (utility_raw dice info) else none

/-- The action string with index `a` in the traversal loop (dudo.cc line
144): `"D"` for the DUDO index, otherwise `NUM_CLAIMS[a] + CLAIM_RANKS[a]`. -/
def action_of (a : ℕ) : List Char :=
  if a = DUDO then ['D'] else [NUM_CLAIMS.getD a ' ', CLAIM_RANKS.getD a ' ']

/-- The action list traversed at a node with `n` actions (dudo.cc lines
143-144): indices `0` to `n - 1` mapped through `action_of`.  The claim
actions are never filtered by the history. -/
def actions_of (n : ℕ) : List (List Char) :=
  (List.range n).map action_of

/-- `Solver::cfr` (dudo.cc lines 123-162), fuel-indexed as for Kuhn.  The
structure is identical to the Kuhn traversal except that the per-node action
count comes from the node and actions are claim strings or `"D"`. -/
def cfr : ℕ → List ℕ → List Char → ℚ → ℚ → Tree → Option (ℚ × Tree)
  | 0, _, _, _, _, _ => none
  | fuel + 1, dice, h, p1, p2, t =>
    let player_idx := h.length % 2
    let info := Nat.digitChar (dice.getD player_idx 0) :: h
    let node := (get_node mkNode t info).1
    let t1 := (get_node mkNode t info).2
    if is_terminal info then
      match get_utility dice info with
      | some u => some ((u : ℚ), t1)
      | none => none
    else
      let reach_p := if player_idx = 0 then p2 else p1
      let strategy := (get_strategy reach_p node).1
      let t2 := set_node t1 info (get_strategy reach_p node).2
      match cfr_actions (fun h2 q1 q2 t0 => cfr fuel dice h2 q1 q2 t0) player_idx h p1 p2
          (List.zip (actions_of node.n_actions) strategy) t2 with
      | none => none
      | some ut =>
        let node_util := (List.zipWith (fun x y => x * y) strategy ut.1).sum
        let node2 := update_regrets reach_p node_util ut.1 0
          ((tree_find ut.2 info).getD (get_strategy reach_p node).2)
        some (node_util, set_node ut.2 info node2)

/-- Modelled from the spec: the Dudo traversal with steps 4 and 7 of section
4.3 written in the specification's words, exactly as in `Kuhn.cfr_spec`:
the strategy computation receives the reach probability of the player NOT
about to act and regrets are updated with that opponent reach probability
times `util[a] - node_util`. -/
def cfr_spec : ℕ → List ℕ → List Char → ℚ → ℚ → Tree → Option (ℚ × Tree)
  | 0, _, _, _, _, _ => none
  | fuel + 1, dice, h, p1, p2, t =>
    let player_idx := h.length % 2
    let info := Nat.digitChar (dice.getD player_idx 0) :: h
    let node := (get_node mkNode t info).1
    let t1 := (get_node mkNode t info).2
    if is_terminal info then
      match get_utility dice info with
      | some u => some ((u : ℚ), t1)
      | none => none
    else
      let opp_reach := reach_of (1 - player_idx) p1 p2
      let strategy := (get_strategy opp_reach node).1
      let t2 := set_node t1 info (get_strategy opp_reach node).2
      match cfr_actions (fun h2 q1 q2 t0 => cfr_spec fuel dice h2 q1 q2 t0) player_idx h p1 p2
          (List.zip (actions_of node.n_actions) strategy) t2 with
      | none => none
      | some ut =>
        let node_util := (List.zipWith (fun x y => x * y) strategy ut.1).sum
        let node2 := update_regrets opp_reach node_util ut.1 0
          ((tree_find ut.2 info).getD (get_strategy opp_reach node).2)
        some (node_util, set_node ut.2 info node2)

/-- The dice vector built by `Solver::train` (dudo.cc lines 165-169) before
the random shuffle: two dice of each value 1 to 6.  Used as a concrete
realized chance outcome. -/
def dice0 : List ℕ := [1, 1, 2, 2, 3, 3, 4, 4, 5, 5, 6, 6]

/-- The training loop of `Solver::train` (dudo.cc lines 176-180). -/
def train_loop (fuel : ℕ) : ℕ → List ℕ → ℚ → Tree → Option (ℚ × Tree)
  | 0, _, util, t => some (util, t)
  | iters + 1, dice, util, t =>
    match cfr fuel dice [] 1 1 t with
    | none => none
    | some vt => train_loop fuel iters dice (util + vt.1) vt.2

/-- `Solver::train(int T)` (dudo.cc lines 164-183), for a given realized
shuffle of the dice.  The function's only externally visible value is the
`util / T` it prints (line 182); the embedding returns that printed value
(`none` when the traversal never returns).  Note the loop also calls
`next_permutation(dice)` but the loop never completes its first iteration,
so the embedding keeps `dice` fixed. -/
def train (fuel T : ℕ) (dice : List ℕ) : Option ℚ :=
  (train_loop fuel T dice 0 []).map (fun ut => ut.1 / (T : ℚ))

/-- The player who issued the final DUDO challenge at the complete public
history `h`: the actor of the history's last move, i.e. the acting player
of the parent history (`h.length - 1` modulo 2, per the `player_idx`
convention of dudo.cc line 124). -/
def challenger (h : List Char) : ℕ := (h.length - 1) % 2

/-- The challenged player at the complete public history `h`: the opponent
of the challenger. -/
def challenged (h : List Char) : ℕ := 1 - challenger h

/-- The perspective-`p` payoff at a completed Dudo hand: `Node::get_utility`
computes the payoff with respect to the challenged player (dudo.cc line 56,
"values are all wrt to challenged player"); the other player's payoff is its
negation, the hand being a transfer between the two players. -/
def util_from (p : ℕ) (dice : List ℕ) (info : List Char) : ℤ :=
  if p % 2 = challenged (info.drop 1) then utility_raw dice info
  else -utility_raw dice info

/-- The characters a list of (count character, rank character) claims
contributes to a history string: each claim is its two characters in order,
as appended by the traversal (dudo.cc line 144). -/
def claims_chars (cs : List (Char × Char)) : List Char :=
  cs.foldr (fun c acc => c.1 :: c.2 :: acc) []

/-- The full vector returned by the Dudo `Node::get_average_strategy`
(dudo.cc lines 94-106): it is allocated with `NUM_ACTIONS = 13` zero entries
(line 95) but only the first `n_actions` are written, so a 12-action node
returns a trailing zero after the per-action values. -/
def get_average_strategy_full (nd : Node) : List ℚ :=
  get_average_strategy nd ++ List.replicate (NUM_ACTIONS - nd.n_actions) 0

end Dudo

namespace War

/-- `N = 3` battlefields (war.cc line 32). -/
def N : ℕ := 3

/-- `S = 5` soldiers (war.cc line 34). -/
def S : ℕ := 5

/-- `dfs` (war.cc lines 49-52), which enumerates the soldier allocations as
digit strings.  The C++ recursion advances `i` towards `N - 1`; the
embedding recurses on the distance `N - 1 - i` (with an unreachable guard
for `i` beyond `N - 1`, where the C++ recursion would not return). -/
def dfs (t : List Char) (i s : ℕ) : List (List Char) :=
  if _h1 : i = N - 1 then [t ++ [Nat.digitChar s]]
  else if _h2 : N - 1 ≤ i then []
  else (List.range (s + 1)).foldr
    (fun j acc => dfs (t ++ [Nat.digitChar j]) (i + 1) (s - j) ++ acc) []
termination_by N - 1 - i
decreasing_by simp_wf; omega

/-- The global `actions` array after `init_actions` (war.cc lines 54-58). -/
def actions : List (List Char) := dfs [] 0 S

/-- `NUM_ACTIONS = actions.size()` (war.cc line 58). -/
def NUM_ACTIONS : ℕ := actions.length

/-- One entry of the `utility` lookup table (war.cc lines 62-72): the number
of battlefields where allocation `a` sends strictly more soldiers than `b`,
minus the number where it sends strictly fewer (digits compared via
`char - '0'`). -/
def utility (a b : ℕ) : ℤ :=
  let sa := actions.getD a []
  let sb := actions.getD b []
  ((List.range N).map (fun i =>
    (if (sa.getD i '0').toNat > (sb.getD i '0').toNat then (1 : ℤ) else 0) -
    (if (sa.getD i '0').toNat < (sb.getD i '0').toNat then 1 else 0))).sum

/-- The six global arrays of war.cc lines 43-47. -/
structure WarState where
  s0 : List ℚ
  s1 : List ℚ
  sum0 : List ℚ
  sum1 : List ℚ
  r0 : List ℚ
  r1 : List ℚ
deriving Repr, DecidableEq

/-- `std::vector<double>::resize(n, 0)`: truncate to `n` elements if the
vector is longer, append zeros if it is shorter, keep existing entries. -/
def resize_fill (v : List ℚ) (n : ℕ) : List ℚ :=
  v.take n ++ List.replicate (n - v.length) 0

/-- The globals before any training (default-constructed empty vectors). -/
def init_state : WarState := ⟨[], [], [], [], [], []⟩

/-- `reset_arrays` (war.cc lines 76-84): despite its name it only calls
`resize(NUM_ACTIONS, 0)` on each array, which sizes an empty vector on the
first call and leaves an already-sized vector unchanged afterwards. -/
def reset_arrays (st : WarState) : WarState :=
  ⟨resize_fill st.s0 NUM_ACTIONS, resize_fill st.s1 NUM_ACTIONS,
   resize_fill st.sum0 NUM_ACTIONS, resize_fill st.sum1 NUM_ACTIONS,
   resize_fill st.r0 NUM_ACTIONS, resize_fill st.r1 NUM_ACTIONS⟩

/-- `update_strategy` (war.cc lines 100-113): regret matching over the
regret array `r`, then `sum[a] += s[a]`.  Returns the new strategy `s` and
the new cumulative `sum` (the C++ function writes both through references). -/
def update_strategy (sum r : List ℚ) : List ℚ × List ℚ :=
  let pos := r.map (fun x => if 0 < x then x else 0)
  let norm := pos.sum
  let snew :=
    if 0 < norm then pos.map (fun x => x / norm)
    else List.replicate NUM_ACTIONS (1 / (NUM_ACTIONS : ℚ))
  (snew, List.zipWith (fun acc x => acc + x) sum snew)

/-- One iteration of the `train` loop (war.cc lines 133-146), with the two
randomly sampled action indices `a0 = get_action(s0)` and `a1 =
get_action(s1)` abstracted as parameters: `reset_arrays()`, then
`r0[a] += utility[a][a1] - utility[a0][a1]` and symmetrically for `r1`,
then `update_strategy` for both players. -/
def train_step (a0 a1 : ℕ) (st : WarState) : WarState :=
  let st1 := reset_arrays st
  let r0n := (List.range NUM_ACTIONS).map
    (fun a => st1.r0.getD a 0 + ((utility a a1 - utility a0 a1 : ℤ) : ℚ))
  let r1n := (List.range NUM_ACTIONS).map
    (fun a => st1.r1.getD a 0 + ((utility a a0 - utility a1 a0 : ℤ) : ℚ))
  let u0 := update_strategy st1.sum0 r0n
  let u1 := update_strategy st1.sum1 r1n
  ⟨u0.1, u1.1, u0.2, u1.2, r0n, r1n⟩

/-- `train(int n)` (war.cc lines 132-147) for a given sequence of sampled
action-index pairs. -/
def train (choices : List (ℕ × ℕ)) (st : WarState) : WarState :=
  choices.foldl (fun st c => train_step c.1 c.2 st) st

/-- All six arrays have length `NUM_ACTIONS` (the state of the globals from
the first `reset_arrays` call on). -/
def WarWF (st : WarState) : Prop :=
  st.s0.length = NUM_ACTIONS ∧ st.s1.length = NUM_ACTIONS ∧
  st.sum0.length = NUM_ACTIONS ∧ st.sum1.length = NUM_ACTIONS ∧
  st.r0.length = NUM_ACTIONS ∧ st.r1.length = NUM_ACTIONS

end War

/-- The node's arrays all have the length recorded in `n_actions` — true of
every node the two solvers ever construct or update. -/
def NodeWF (nd : Node) : Prop :=
  nd.regret_sum.length = nd.n_actions ∧ nd.strategy.length = nd.n_actions ∧
  nd.strategy_sum.length = nd.n_actions

/-- Every node stored in the tree is well-formed. -/
def TreeWF (t : Tree) : Prop :=
  ∀ k nd, tree_find t k = some nd → NodeWF nd

/-- Evolution order on nodes: the action count is unchanged, the regret and
strategy-sum arrays keep their lengths (they are never reset or shrunk), and
every cumulative strategy-sum entry is at least its old value. -/
def NodeLe (nd ndn : Node) : Prop :=
  ndn.n_actions = nd.n_actions ∧
  ndn.regret_sum.length = nd.regret_sum.length ∧
  ndn.strategy_sum.length = nd.strategy_sum.length ∧
  ∀ a, nd.strategy_sum.getD a 0 ≤ ndn.strategy_sum.getD a 0

/-- Evolution order on stores: every key present before is present after,
with its node evolved according to `NodeLe`. -/
def TreeLe (t tn : Tree) : Prop :=
  ∀ k nd, tree_find t k = some nd → ∃ ndn, tree_find tn k = some ndn ∧ NodeLe nd ndn

/-- Stored nodes have consistent array lengths and at least one action —
true of every node the Dudo solver ever stores. -/
def DudoTreeOK (t : Tree) : Prop :=
  ∀ k nd, tree_find t k = some nd → NodeWF nd ∧ 1 ≤ nd.n_actions

/-- A concrete node used to witness the node-level claims. -/
def witness_node : Node :=
  { info_set := ['1']
    n_actions := 2
    regret_sum := [3, -1]
    strategy := [1 / 2, 1 / 2]
    strategy_sum := [1, 2] }

/-- A concrete node with no positive regret and zero strategy mass, reaching
the uniform fallbacks. -/
def witness_node_zero : Node :=
  { info_set := ['2']
    n_actions := 2
    regret_sum := [-1, 0]
    strategy := [1 / 2, 1 / 2]
    strategy_sum := [0, 0] }

/-- A concrete well-formed Blotto training state (all six arrays sized
`NUM_ACTIONS`, as after the first `reset_arrays` call). -/
def war_witness_state : War.WarState :=
  ⟨List.replicate War.NUM_ACTIONS 0, List.replicate War.NUM_ACTIONS 0,
   List.replicate War.NUM_ACTIONS 0, List.replicate War.NUM_ACTIONS 0,
   List.replicate War.NUM_ACTIONS 0, List.replicate War.NUM_ACTIONS 0⟩

/-!
## Helper lemmas
-/

theorem sum_map_div (l : List ℚ) (c : ℚ) :
    (l.map (fun x => x / c)).sum = l.sum / c := by
  induction l with
  | nil => simp
  | cons a l ih => simp [ih, add_div]

theorem sum_replicate_inv (n : ℕ) (hn : 0 < n) :
    (List.replicate n ((1 : ℚ) / (n : ℚ))).sum = 1 := by
  have hne : (n : ℚ) ≠ 0 := Nat.cast_ne_zero.mpr hn.ne'
  rw [List.sum_replicate, nsmul_eq_mul, mul_one_div, div_self hne]

theorem pos_part_sum_nonneg (l : List ℚ) :
    0 ≤ (l.map (fun r => max r 0)).sum := by
  apply List.sum_nonneg
  intro x hx
  obtain ⟨r, _, rfl⟩ := List.mem_map.mp hx
  exact le_max_right r 0

theorem get_strategy_fst_nonneg (p : ℚ) (nd : Node) :
    ∀ x ∈ (get_strategy p nd).1, 0 ≤ x := by
  intro x hx
  unfold get_strategy at hx
  simp only at hx
  split at hx
  · obtain ⟨r, _, rfl⟩ := List.mem_map.mp hx
    obtain ⟨q, _, rfl⟩ := List.mem_map.mp ‹r ∈ _›
    exact div_nonneg (le_max_right q 0) (le_of_lt (by assumption))
  · rw [List.eq_of_mem_replicate hx]
    positivity

theorem get_strategy_fst_sum (p : ℚ) (nd : Node) (hn : 0 < nd.n_actions) :
    (get_strategy p nd).1.sum = 1 := by
  unfold get_strategy
  simp only
  split
  · rw [sum_map_div, div_self]
    exact ne_of_gt (by assumption)
  · exact sum_replicate_inv nd.n_actions hn

/-!
## Claim theorems
-/

/-- **C1.**  For every node, `get_strategy` returns, for each action, the
positive part `max(regret_sum[a], 0)` divided by the sum of these positive
parts over all of the node's actions, and the uniform distribution over
`n_actions` actions when that sum is zero; in every case the returned vector
has no negative entries and sums to 1. -/
theorem claim1_get_strategy (nd : Node) (p : ℚ) (hn : 0 < nd.n_actions) :
    ((nd.regret_sum.map (fun r => max r 0)).sum ≠ 0 →
      (get_strategy p nd).1 = (nd.regret_sum.map (fun r => max r 0)).map
        (fun x => x / (nd.regret_sum.map (fun r => max r 0)).sum)) ∧
    ((nd.regret_sum.map (fun r => max r 0)).sum = 0 →
      (get_strategy p nd).1 = List.replicate nd.n_actions (1 / (nd.n_actions : ℚ))) ∧
    (∀ x ∈ (get_strategy p nd).1, 0 ≤ x) ∧
    (get_strategy p nd).1.sum = 1 := by
  refine ⟨?_, ?_, get_strategy_fst_nonneg p nd, get_strategy_fst_sum p nd hn⟩
  · intro hne
    have hpos : 0 < (nd.regret_sum.map (fun r => max r 0)).sum :=
      lt_of_le_of_ne (pos_part_sum_nonneg nd.regret_sum) (Ne.symm hne)
    unfold get_strategy
    simp only [if_pos hpos]
  · intro hz
    unfold get_strategy
    simp [hz]

theorem claim1_get_strategy_witness :
    0 < witness_node.n_actions ∧ (get_strategy 1 witness_node).1.sum = 1 :=
  ⟨by decide, (claim1_get_strategy witness_node 1 (by decide)).2.2.2⟩

/-- **C3.**  For every node, `get_average_strategy` returns, for each action,
`strategy_sum[a]` divided by the total strategy-sum mass, and the uniform
distribution over the node's actions when that total is zero; the returned
vector always sums to 1 (also in the Dudo variant that pads the vector
to `NUM_ACTIONS` entries), and calling the method repeatedly without
intervening training leaves the node unchanged and returns identical
results. -/
theorem claim3_average_strategy (nd : Node) (hn : 0 < nd.n_actions) :
    (0 < nd.strategy_sum.sum →
      get_average_strategy nd =
        nd.strategy_sum.map (fun x => x / nd.strategy_sum.sum)) ∧
    (nd.strategy_sum.sum = 0 →
      get_average_strategy nd = List.replicate nd.n_actions (1 / (nd.n_actions : ℚ))) ∧
    (get_average_strategy nd).sum = 1 ∧
    (Dudo.get_average_strategy_full nd).sum = 1 ∧
    (get_average_strategy_call nd).2 = nd ∧
    (get_average_strategy_call ((get_average_strategy_call nd).2)).1 =
      (get_average_strategy_call nd).1 := by
  have hsum : (get_average_strategy nd).sum = 1 := by
    unfold get_average_strategy
    simp only
    split
    · rw [sum_map_div, div_self]
      exact ne_of_gt (by assumption)
    · exact sum_replicate_inv nd.n_actions hn
  refine ⟨?_, ?_, hsum, ?_, rfl, rfl⟩
  · intro hpos
    unfold get_average_strategy
    simp only [if_pos hpos]
  · intro hz
    unfold get_average_strategy
    simp [hz]
  · unfold Dudo.get_average_strategy_full
    rw [List.sum_append, hsum, List.sum_replicate]
    simp

theorem claim3_average_strategy_witness :
    0 < witness_node.n_actions ∧ (get_average_strategy witness_node).sum = 1 :=
  ⟨by decide, (claim3_average_strategy witness_node (by decide)).2.2.1⟩

theorem reach_of_opp (i : ℕ) (p1 p2 : ℚ) :
    reach_of (1 - i) p1 p2 = if i = 0 then p2 else p1 := by
  cases i with
  | zero => simp [reach_of]
  | succ n =>
    have h10 : 1 - (n + 1) = 0 := by omega
    simp [reach_of, h10]

theorem cfr_actions_congr (f g : List Char → ℚ → ℚ → Tree → Option (ℚ × Tree))
    (hfg : ∀ h2 q1 q2 t0, f h2 q1 q2 t0 = g h2 q1 q2 t0) (player_idx : ℕ)
    (h : List Char) (p1 p2 : ℚ) :
    ∀ l t, cfr_actions f player_idx h p1 p2 l t = cfr_actions g player_idx h p1 p2 l t := by
  intro l
  induction l with
  | nil => intro t; rfl
  | cons a rest ih =>
    intro t
    obtain ⟨act, sa⟩ := a
    unfold cfr_actions
    rw [hfg]
    cases g (h ++ act) (if player_idx = 0 then p1 * sa else p1)
        (if player_idx = 0 then p2 else p2 * sa) t with
    | none => rfl
    | some vt => simp only [ih]

theorem kuhn_cfr_eq_spec : ∀ fuel cards h p1 p2 t,
    Kuhn.cfr fuel cards h p1 p2 t = Kuhn.cfr_spec fuel cards h p1 p2 t := by
  intro fuel
  induction fuel with
  | zero => intro cards h p1 p2 t; rfl
  | succ fuel ih =>
    intro cards h p1 p2 t
    have hrec : (fun h2 q1 q2 t0 => Kuhn.cfr fuel cards h2 q1 q2 t0) =
        (fun h2 q1 q2 t0 => Kuhn.cfr_spec fuel cards h2 q1 q2 t0) := by
      funext h2 q1 q2 t0
      exact ih cards h2 q1 q2 t0
    unfold Kuhn.cfr Kuhn.cfr_spec
    simp only [reach_of_opp, hrec]

theorem dudo_cfr_eq_spec : ∀ fuel dice h p1 p2 t,
    Dudo.cfr fuel dice h p1 p2 t = Dudo.cfr_spec fuel dice h p1 p2 t := by
  intro fuel
  induction fuel with
  | zero => intro dice h p1 p2 t; rfl
  | succ fuel ih =>
    intro dice h p1 p2 t
    have hrec : (fun h2 q1 q2 t0 => Dudo.cfr fuel dice h2 q1 q2 t0) =
        (fun h2 q1 q2 t0 => Dudo.cfr_spec fuel dice h2 q1 q2 t0) := by
      funext h2 q1 q2 t0
      exact ih dice h2 q1 q2 t0
    unfold Dudo.cfr Dudo.cfr_spec
    simp only [reach_of_opp, hrec]

/-- **C2.**  In every non-terminal step of the CFR traversal, the reach
probability passed to the node's strategy computation (and hence accumulated
into `strategy_sum`) is the reach probability of the player NOT about to
act, and each action's regret is updated by exactly that same opponent reach
probability times `util[a] - node_util`, where `node_util` is the
strategy-weighted sum of the negated child utilities: the traversals of both
games coincide with the variants `cfr_spec` written literally from the
specification's steps 4-7. -/
theorem claim2_cfr_matches_spec :
    (∀ fuel cards h p1 p2 t,
      Kuhn.cfr fuel cards h p1 p2 t = Kuhn.cfr_spec fuel cards h p1 p2 t) ∧
    (∀ fuel dice h p1 p2 t,
      Dudo.cfr fuel dice h p1 p2 t = Dudo.cfr_spec fuel dice h p1 p2 t) :=
  ⟨kuhn_cfr_eq_spec, dudo_cfr_eq_spec⟩

theorem showdown_flip (a b : ℕ) (k : ℚ) (hne : a ≠ b) :
    (if a > b then k else -k) = -(if b > a then k else -k) := by
  rcases lt_or_gt_of_ne hne with hlt | hgt
  · rw [if_neg (lt_asymm hlt), if_pos hlt]
  · rw [if_pos hgt, if_neg (lt_asymm hgt), neg_neg]

theorem kuhn_get_utility_doc (x : Char) (cards : List ℕ) (h : List Char)
    (hh : h ∈ Kuhn.TERMINAL_HISTORIES) :
    Kuhn.get_utility cards (x :: h) = some (Kuhn.doc_payoff (h.length % 2) cards h) := by
  simp only [Kuhn.TERMINAL_HISTORIES, List.mem_cons, List.not_mem_nil, or_false] at hh
  rcases hh with rfl | rfl | rfl | rfl | rfl <;>
    refine Eq.trans (show Kuhn.get_utility cards _ = some (Kuhn.utility_raw cards _) from rfl)
      (congrArg some ?_) <;>
    (simp only [List.drop_succ_cons, List.drop_zero]; exact rfl)

theorem kuhn_doc_payoff_neg (p : ℕ) (cards : List ℕ) (h : List Char) (hp : p < 2)
    (hh : h ∈ Kuhn.TERMINAL_HISTORIES) (hne : cards.getD 0 0 ≠ cards.getD 1 0) :
    Kuhn.doc_payoff p cards h = -Kuhn.doc_payoff (1 - p) cards h := by
  simp only [Kuhn.TERMINAL_HISTORIES, List.mem_cons, List.not_mem_nil, or_false] at hh
  interval_cases p <;> rcases hh with rfl | rfl | rfl | rfl | rfl <;>
    first
      | exact showdown_flip (cards.getD 0 0) (cards.getD 1 0) 1 hne
      | exact showdown_flip (cards.getD 0 0) (cards.getD 1 0) 2 hne
      | exact showdown_flip (cards.getD 1 0) (cards.getD 0 0) 1 (Ne.symm hne)
      | exact showdown_flip (cards.getD 1 0) (cards.getD 0 0) 2 (Ne.symm hne)
      | exact (by norm_num : (1 : ℚ) = -(-1 : ℚ))
      | exact (by norm_num : (-1 : ℚ) = -(1 : ℚ))

theorem dudo_get_utility_acting (x : Char) (dice : List ℕ) (h : List Char)
    (hh : h.getLast? = some 'D') :
    Dudo.get_utility dice (x :: h) = some (Dudo.util_from (h.length % 2) dice (x :: h)) := by
  have hne : h ≠ [] := by
    intro he
    rw [he] at hh
    simp at hh
  have hterm : Dudo.is_terminal (x :: h) = true := by
    unfold Dudo.is_terminal
    cases h with
    | nil => exact absurd rfl hne
    | cons a l =>
      rw [List.getLast?_cons_cons]
      simp [hh]
  have hlen : 1 ≤ h.length := List.length_pos.mpr hne
  have hch : (h.length % 2) % 2 = Dudo.challenged ((x :: h).drop 1) := by
    unfold Dudo.challenged Dudo.challenger
    simp only [List.drop_succ_cons, List.drop_zero]
    omega
  unfold Dudo.get_utility Dudo.util_from
  rw [hterm, if_pos hch]
  simp

theorem dudo_util_from_neg (p : ℕ) (dice : List ℕ) (info : List Char) (hp : p < 2) :
    Dudo.util_from p dice info = -Dudo.util_from (1 - p) dice info := by
  have hc : Dudo.challenged (info.drop 1) = 0 ∨ Dudo.challenged (info.drop 1) = 1 := by
    unfold Dudo.challenged Dudo.challenger
    omega
  unfold Dudo.util_from
  interval_cases p <;> rcases hc with hc | hc <;> rw [hc] <;> norm_num

/-- **C4.**  For every fixed chance outcome and every complete (terminal)
history, the terminal utility returned by `get_utility` is the payoff for
the player acting at that history, and that payoff is the negation of the
payoff of the same terminal history from the other player's perspective:
Kuhn's `get_utility` agrees with the documented result table read from the
acting player's seat, and the table's two perspectives negate whenever the
two dealt cards differ; Dudo's `get_utility` is the challenged player's
payoff, the challenged player is exactly the player acting at the terminal
history, and the two perspectives negate. -/
theorem claim4_zero_sum :
    (∀ (x : Char) (cards : List ℕ) (h : List Char), h ∈ Kuhn.TERMINAL_HISTORIES →
      Kuhn.get_utility cards (x :: h) = some (Kuhn.doc_payoff (h.length % 2) cards h)) ∧
    (∀ (p : ℕ) (cards : List ℕ) (h : List Char), p < 2 → h ∈ Kuhn.TERMINAL_HISTORIES →
      cards.getD 0 0 ≠ cards.getD 1 0 →
      Kuhn.doc_payoff p cards h = -Kuhn.doc_payoff (1 - p) cards h) ∧
    (∀ (x : Char) (dice : List ℕ) (h : List Char), h.getLast? = some 'D' →
      Dudo.get_utility dice (x :: h) = some (Dudo.util_from (h.length % 2) dice (x :: h))) ∧
    (∀ (p : ℕ) (dice : List ℕ) (info : List Char), p < 2 →
      Dudo.util_from p dice info = -Dudo.util_from (1 - p) dice info) :=
  ⟨kuhn_get_utility_doc, fun p cards h hp hh hne => kuhn_doc_payoff_neg p cards h hp hh hne,
   dudo_get_utility_acting, fun p dice info hp => dudo_util_from_neg p dice info hp⟩

theorem claim4_zero_sum_witness :
    (['b', 'c'] ∈ Kuhn.TERMINAL_HISTORIES ∧
      Kuhn.get_utility [1, 2, 3] ['3', 'b', 'c'] =
        some (Kuhn.doc_payoff 0 [1, 2, 3] ['b', 'c'])) ∧
    (0 < 2 ∧ ([1, 2, 3] : List ℕ).getD 0 0 ≠ ([1, 2, 3] : List ℕ).getD 1 0 ∧
      Kuhn.doc_payoff 0 [1, 2, 3] ['c', 'c'] = -Kuhn.doc_payoff 1 [1, 2, 3] ['c', 'c']) ∧
    ((['1', '2', 'D'] : List Char).getLast? = some 'D' ∧
      Dudo.get_utility [1, 2] ['2', '1', '2', 'D'] =
        some (Dudo.util_from 1 [1, 2] ['2', '1', '2', 'D'])) ∧
    Dudo.util_from 0 [1, 2] ['2', '1', '2', 'D'] =
      -Dudo.util_from 1 [1, 2] ['2', '1', '2', 'D'] := by
  refine ⟨⟨by decide, ?_⟩, ⟨by decide, by decide, ?_⟩, ⟨by decide, ?_⟩, ?_⟩
  · exact claim4_zero_sum.1 '3' [1, 2, 3] ['b', 'c'] (by decide)
  · exact claim4_zero_sum.2.1 0 [1, 2, 3] ['c', 'c'] (by decide) (by decide) (by decide)
  · exact claim4_zero_sum.2.2.1 '2' [1, 2] ['1', '2', 'D'] (by decide)
  · exact claim4_zero_sum.2.2.2 0 [1, 2] ['2', '1', '2', 'D'] (by decide)

theorem claims_chars_length (cs : List (Char × Char)) :
    (Dudo.claims_chars cs).length = 2 * cs.length := by
  induction cs with
  | nil => rfl
  | cons c rest ih =>
    simp only [Dudo.claims_chars, List.foldr_cons, List.length_cons] at *
    omega

theorem dudo_read_chars (d u1 r1 u2 r2 : Char) (cs : List (Char × Char)) :
    (d :: (Dudo.claims_chars cs ++ [u1, r1, u2, r2, 'D'])).getD
      ((d :: (Dudo.claims_chars cs ++ [u1, r1, u2, r2, 'D'])).length - 4) ' ' = r1 ∧
    (d :: (Dudo.claims_chars cs ++ [u1, r1, u2, r2, 'D'])).getD
      ((d :: (Dudo.claims_chars cs ++ [u1, r1, u2, r2, 'D'])).length - 2) ' ' = r2 := by
  have hcl : (Dudo.claims_chars cs).length = 2 * cs.length := claims_chars_length cs
  have hlen : (d :: (Dudo.claims_chars cs ++ [u1, r1, u2, r2, 'D'])).length =
      2 * cs.length + 6 := by
    simp [hcl]
  rw [hlen]
  constructor
  · have h4 : 2 * cs.length + 6 - 4 = (2 * cs.length + 1) + 1 := by omega
    rw [h4, List.getD_cons_succ,
      List.getD_append_right _ _ _ _ (by rw [hcl]; omega)]
    rw [hcl, show 2 * cs.length + 1 - 2 * cs.length = 1 from by omega]
    rfl
  · have h2 : 2 * cs.length + 6 - 2 = (2 * cs.length + 3) + 1 := by omega
    rw [h2, List.getD_cons_succ,
      List.getD_append_right _ _ _ _ (by rw [hcl]; omega)]
    rw [hcl, show 2 * cs.length + 3 - 2 * cs.length = 3 from by omega]
    rfl

theorem claim_pairs_rank_bounds :
    ∀ c ∈ Dudo.claim_pairs, 49 ≤ (c.2).toNat ∧ (c.2).toNat ≤ 54 := by decide

/-- **C10.**  In the Dudo game, for every dice assignment and every terminal
information set reachable by the traversal (a die digit, at least two claim
strings, then the DUDO marker), `get_utility` succeeds and returns a value
of at least 47 (in particular strictly positive) no matter what the dice
show: the claimed count and rank are read from the info-set string as raw
ASCII codes (49 to 54), so `rank_count - n` is always negative and the
challenged player's reported payoff never depends on who actually won. -/
theorem claim10_dudo_utility_at_least_47 (die : ℕ) (cs : List (Char × Char))
    (u1 r1 u2 r2 : Char) (dice : List ℕ) (info : List Char)
    (hdie : 1 ≤ die ∧ die ≤ 6)
    (h1 : (u1, r1) ∈ Dudo.claim_pairs) (h2 : (u2, r2) ∈ Dudo.claim_pairs)
    (hinfo : info = Nat.digitChar die :: (Dudo.claims_chars cs ++ [u1, r1, u2, r2, 'D'])) :
    Dudo.get_utility dice info = some (Dudo.utility_raw dice info) ∧
    47 ≤ Dudo.utility_raw dice info ∧ 0 < Dudo.utility_raw dice info := by
  have hsplit : Nat.digitChar die :: (Dudo.claims_chars cs ++ [u1, r1, u2, r2, 'D']) =
      (Nat.digitChar die :: (Dudo.claims_chars cs ++ [u1, r1, u2, r2])) ++ ['D'] := by simp
  have hterm : Dudo.is_terminal info = true := by
    unfold Dudo.is_terminal
    rw [hinfo, hsplit, List.getLast?_concat]
    rfl
  obtain ⟨hA, hB⟩ := dudo_read_chars (Nat.digitChar die) u1 r1 u2 r2 cs
  rw [← hinfo] at hA hB
  have hr1 : 49 ≤ r1.toNat ∧ r1.toNat ≤ 54 := claim_pairs_rank_bounds (u1, r1) h1
  have hmain : 47 ≤ Dudo.utility_raw dice info := by
    simp only [Dudo.utility_raw]
    rw [hA, hB]
    split_ifs <;> omega
  refine ⟨?_, hmain, by omega⟩
  unfold Dudo.get_utility
  rw [hterm]
  simp

theorem claim10_dudo_utility_witness :
    ((1 ≤ 1 ∧ 1 ≤ 6) ∧ (('1', '2') ∈ Dudo.claim_pairs) ∧ (('1', '3') ∈ Dudo.claim_pairs) ∧
      (['1', '1', '2', '1', '3', 'D'] : List Char) =
        Nat.digitChar 1 :: (Dudo.claims_chars [] ++ ['1', '2', '1', '3', 'D'])) ∧
    Dudo.get_utility [2, 3] ['1', '1', '2', '1', '3', 'D'] =
      some (Dudo.utility_raw [2, 3] ['1', '1', '2', '1', '3', 'D']) ∧
    47 ≤ Dudo.utility_raw [2, 3] ['1', '1', '2', '1', '3', 'D'] ∧
    0 < Dudo.utility_raw [2, 3] ['1', '1', '2', '1', '3', 'D'] :=
  ⟨⟨by decide, by decide, by decide, by decide⟩,
    claim10_dudo_utility_at_least_47 1 [] '1' '2' '1' '3' [2, 3]
      ['1', '1', '2', '1', '3', 'D'] (by decide) (by decide) (by decide) (by decide)⟩

/-- **C8 counterexample.**  The claim says every Dudo information set whose
public history contains at least one live claim has exactly one more legal
action than the opening information set.  The information set `"112"` (die
`'1'`, public history the single claim `"12"`) is a counterexample: its node
is created with 12 actions, the same as the opening information set `"1"`,
not one more — the constructor only grants the DUDO action when the info-set
string has length at least 4, i.e. after two claims. -/
theorem claim8_counterexample :
    (Dudo.mkNode ['1', '1', '2']).n_actions = (Dudo.mkNode ['1']).n_actions ∧
    ¬((Dudo.mkNode ['1', '1', '2']).n_actions = (Dudo.mkNode ['1']).n_actions + 1) := by
  decide

/-- **C8 (amended).**  A node's action count is fixed at creation and never
changed by any node operation, and in Dudo an information set whose public
history consists of claim strings has exactly one more legal action than the
opening information set precisely when it contains at least TWO claims
(info-set string length at least 4); with zero or one claim the action count
equals the opening one. -/
theorem claim8_action_count (d : Char) (cs : List (Char × Char)) (p v : ℚ) (a : ℕ)
    (nd : Node) :
    (Dudo.mkNode (d :: Dudo.claims_chars cs)).n_actions =
      (Dudo.mkNode [d]).n_actions + (if 2 ≤ cs.length then 1 else 0) ∧
    (get_strategy p nd).2.n_actions = nd.n_actions ∧
    (update_regret a v nd).n_actions = nd.n_actions := by
  refine ⟨?_, rfl, rfl⟩
  have hlen : (d :: Dudo.claims_chars cs).length = 2 * cs.length + 1 := by
    simp [claims_chars_length]
  simp only [Dudo.mkNode, Dudo.NUM_ACTIONS, hlen, List.length_singleton]
  split_ifs <;> omega

/-- **C7.**  The claim says requesting the average strategy for a key never
visited during training fails with an `UnknownInformationSetError`.  The
code has no such error: evaluating `Game::get_bot_action` at an absent key
(here the untrained, empty solution map) makes `operator[]` default-insert a
null `Node*` which is then dereferenced — undefined behaviour, modelled as
`none`, not a raised typed error — while the Solver-side `get_node` silently
creates a fresh node for an unvisited key and that node's average strategy
is the uniform default distribution. -/
theorem claim7_unknown_key :
    Kuhn.get_bot_action_strategy [] '1' ['c'] = none ∧
    tree_find (get_node Kuhn.mkNode [] ['1', 'c']).2 ['1', 'c'] =
      some (Kuhn.mkNode ['1', 'c']) ∧
    get_average_strategy (Kuhn.mkNode ['1', 'c']) = [1 / 2, 1 / 2] := by
  refine ⟨rfl, rfl, ?_⟩
  norm_num [get_average_strategy, Kuhn.mkNode, Kuhn.NUM_ACTIONS, Kuhn.ACTIONS,
    List.replicate]

theorem tree_find_set_self (t : Tree) (info : List Char) (nd : Node) :
    tree_find (set_node t info nd) info = some nd := by
  unfold set_node tree_find
  rw [if_pos rfl]

theorem dudo_mkNode_ok (info : List Char) :
    NodeWF (Dudo.mkNode info) ∧ 1 ≤ (Dudo.mkNode info).n_actions := by
  unfold Dudo.mkNode NodeWF Dudo.NUM_ACTIONS
  split_ifs <;> simp

theorem get_strategy_shape (p : ℚ) (nd : Node) (hwf : NodeWF nd) :
    NodeWF (get_strategy p nd).2 ∧ (get_strategy p nd).2.n_actions = nd.n_actions ∧
    (get_strategy p nd).1.length = nd.n_actions := by
  obtain ⟨h1, h2, h3⟩ := hwf
  have hstrat : (get_strategy p nd).1.length = nd.n_actions := by
    unfold get_strategy
    simp only
    split
    · simp [h1]
    · simp
  constructor
  · refine ⟨h1, ?_, ?_⟩
    · show (get_strategy p nd).1.length = nd.n_actions
      exact hstrat
    · show (List.zipWith _ nd.strategy_sum (get_strategy p nd).1).length = nd.n_actions
      rw [List.length_zipWith, hstrat, h3, min_self]
  · exact ⟨rfl, hstrat⟩

theorem set_node_ok (t : Tree) (info : List Char) (nd : Node) (ht : DudoTreeOK t)
    (hnd : NodeWF nd ∧ 1 ≤ nd.n_actions) : DudoTreeOK (set_node t info nd) := by
  intro k nd2 hfind
  unfold set_node tree_find at hfind
  by_cases hk : info = k
  · rw [if_pos hk] at hfind
    obtain rfl : nd = nd2 := by injection hfind
    exact hnd
  · rw [if_neg hk] at hfind
    exact ht k nd2 hfind

theorem get_node_ok (t : Tree) (info : List Char) (ht : DudoTreeOK t) :
    DudoTreeOK ((get_node Dudo.mkNode t info).2) ∧
    NodeWF ((get_node Dudo.mkNode t info).1) ∧
    1 ≤ ((get_node Dudo.mkNode t info).1).n_actions := by
  unfold get_node
  cases hfind : tree_find t info with
  | some nd =>
    simp only [hfind]
    exact ⟨ht, ht info nd hfind⟩
  | none =>
    simp only [hfind]
    refine ⟨?_, dudo_mkNode_ok info⟩
    exact set_node_ok t info (Dudo.mkNode info) ht (dudo_mkNode_ok info)

theorem cfr_actions_head_none (f : List Char → ℚ → ℚ → Tree → Option (ℚ × Tree))
    (player_idx : ℕ) (h act : List Char) (p1 p2 sa : ℚ)
    (rest : List (List Char × ℚ)) (t : Tree)
    (hf : f (h ++ act) (if player_idx = 0 then p1 * sa else p1)
      (if player_idx = 0 then p2 else p2 * sa) t = none) :
    cfr_actions f player_idx h p1 p2 ((act, sa) :: rest) t = none := by
  unfold cfr_actions
  rw [hf]

theorem actions_of_succ (m : ℕ) :
    Dudo.actions_of (m + 1) =
      ['1', '2'] :: ((List.range m).map (fun i => Dudo.action_of (i + 1))) := by
  unfold Dudo.actions_of
  rw [List.range_succ_eq_map, List.map_cons, List.map_map]
  rfl

theorem append_claim_getLast (h : List Char) :
    (h ++ ['1', '2']).getLast? = some '2' := by
  rw [show h ++ ['1', '2'] = (h ++ ['1']) ++ ['2'] from by simp]
  exact List.getLast?_concat _

/-- The Dudo traversal never returns: from any non-terminal history it
always recurses into the non-terminal child obtained by appending the first
claim string `"12"`, because the action list is never restricted by the
history.  Whatever the recursion depth allowed, the result is "out of
fuel". -/
theorem dudo_cfr_diverges_aux : ∀ (fuel : ℕ) (h : List Char) (p1 p2 : ℚ) (t : Tree),
    DudoTreeOK t → h.getLast? ≠ some 'D' →
    Dudo.cfr fuel Dudo.dice0 h p1 p2 t = none := by
  intro fuel
  induction fuel with
  | zero => intro h p1 p2 t _ _; rfl
  | succ fuel ih =>
    intro h p1 p2 t htOK hlast
    have hdig : Nat.digitChar (Dudo.dice0.getD (h.length % 2) 0) = '1' := by
      rcases Nat.mod_two_eq_zero_or_one h.length with hm | hm <;> rw [hm] <;> rfl
    have hterm :
        Dudo.is_terminal (Nat.digitChar (Dudo.dice0.getD (h.length % 2) 0) :: h) = false := by
      rw [hdig]
      unfold Dudo.is_terminal
      cases h with
      | nil => rfl
      | cons a l =>
        rw [List.getLast?_cons_cons]
        simp only [decide_eq_false_iff_not]
        exact hlast
    obtain ⟨ht1, hWF, hn1⟩ :=
      get_node_ok t (Nat.digitChar (Dudo.dice0.getD (h.length % 2) 0) :: h) htOK
    have hshape := get_strategy_shape (if h.length % 2 = 0 then p2 else p1)
      ((get_node Dudo.mkNode t (Nat.digitChar (Dudo.dice0.getD (h.length % 2) 0) :: h)).1) hWF
    obtain ⟨hWF2, hnsame, hslen⟩ := hshape
    obtain ⟨m, hm⟩ : ∃ m,
        ((get_node Dudo.mkNode t
          (Nat.digitChar (Dudo.dice0.getD (h.length % 2) 0) :: h)).1).n_actions = m + 1 := by
      exact ⟨_, (Nat.succ_pred_eq_of_pos hn1).symm⟩
    obtain ⟨s0, srest, hs⟩ : ∃ s0 srest,
        (get_strategy (if h.length % 2 = 0 then p2 else p1)
          ((get_node Dudo.mkNode t
            (Nat.digitChar (Dudo.dice0.getD (h.length % 2) 0) :: h)).1)).1 = s0 :: srest := by
      cases hsl : (get_strategy (if h.length % 2 = 0 then p2 else p1)
          ((get_node Dudo.mkNode t
            (Nat.digitChar (Dudo.dice0.getD (h.length % 2) 0) :: h)).1)).1 with
      | nil =>
        rw [hsl, hm] at hslen
        simp at hslen
      | cons a l => exact ⟨a, l, rfl⟩
    have ht2 : DudoTreeOK (set_node
        (get_node Dudo.mkNode t (Nat.digitChar (Dudo.dice0.getD (h.length % 2) 0) :: h)).2
        (Nat.digitChar (Dudo.dice0.getD (h.length % 2) 0) :: h)
        (get_strategy (if h.length % 2 = 0 then p2 else p1)
          ((get_node Dudo.mkNode t
            (Nat.digitChar (Dudo.dice0.getD (h.length % 2) 0) :: h)).1)).2) := by
      apply set_node_ok _ _ _ ht1
      exact ⟨hWF2, by rw [hnsame]; exact hn1⟩
    have hchild := ih (h ++ ['1', '2'])
      (if h.length % 2 = 0 then p1 * s0 else p1)
      (if h.length % 2 = 0 then p2 else p2 * s0) _ ht2
      (by rw [append_claim_getLast]; simp)
    simp only [Dudo.cfr]
    rw [hterm]
    simp only [Bool.false_eq_true, if_false]
    rw [hm, actions_of_succ, hs, List.zip_cons_cons]
    rw [cfr_actions_head_none _ _ _ _ _ _ _ _ _ hchild]

/-- **C5.**  The claim says the CFR traversal started at the empty history
with both reach probabilities 1 terminates because the reachable game tree
is finite.  For the Dudo solver this is false: the claim actions are never
restricted by the history, so the reachable tree is infinite and
`Solver::cfr(dice, "", 1, 1)` never returns — for every recursion depth
`fuel` the fuel-indexed embedding runs out (evaluation of the code at the
failing input of the training driver, dice `{1,1,2,2,3,3,4,4,5,5,6,6}`). -/
theorem claim5_dudo_cfr_never_terminates :
    ∀ fuel : ℕ, Dudo.cfr fuel Dudo.dice0 [] 1 1 [] = none := by
  intro fuel
  apply dudo_cfr_diverges_aux fuel [] 1 1 []
  · intro k nd hfind
    simp [tree_find] at hfind
  · simp

theorem kuhn_cfr_terminal (fuel : ℕ) (cards : List ℕ) (p1 p2 : ℚ) (t : Tree)
    (h : List Char) (hterm : h ∈ Kuhn.TERMINAL_HISTORIES) :
    Kuhn.cfr (fuel + 1) cards h p1 p2 t = some (Kuhn.utility_raw cards h,
      (get_node Kuhn.mkNode t (Nat.digitChar (cards.getD (h.length % 2) 0) :: h)).2) := by
  have hT : Kuhn.is_terminal (Nat.digitChar (cards.getD (h.length % 2) 0) :: h) = true := by
    unfold Kuhn.is_terminal
    simp only [List.drop_succ_cons, List.drop_zero, decide_eq_true_eq]
    exact hterm
  have hU : Kuhn.get_utility cards (Nat.digitChar (cards.getD (h.length % 2) 0) :: h) =
      some (Kuhn.utility_raw cards h) := by
    unfold Kuhn.get_utility
    rw [hT]
    simp only [if_true, List.drop_succ_cons, List.drop_zero]
  simp only [Kuhn.cfr]
  rw [if_pos hT, hU]

theorem cfr_actions_isSome (f : List Char → ℚ → ℚ → Tree → Option (ℚ × Tree))
    (player_idx : ℕ) (h : List Char) (p1 p2 : ℚ) :
    ∀ (l : List (List Char × ℚ)) (t : Tree),
    (∀ act sa t0, (act, sa) ∈ l →
      (f (h ++ act) (if player_idx = 0 then p1 * sa else p1)
        (if player_idx = 0 then p2 else p2 * sa) t0).isSome = true) →
    (cfr_actions f player_idx h p1 p2 l t).isSome = true := by
  intro l
  induction l with
  | nil => intro t _; rfl
  | cons a rest ih =>
    intro t hf
    obtain ⟨act, sa⟩ := a
    obtain ⟨vt, hvt⟩ := Option.isSome_iff_exists.mp
      (hf act sa t (List.mem_cons_self _ _))
    obtain ⟨ut, hut⟩ := Option.isSome_iff_exists.mp
      (ih vt.2 (fun act2 sa2 t2 hmem => hf act2 sa2 t2 (List.mem_cons_of_mem _ hmem)))
    unfold cfr_actions
    rw [hvt]
    show (match cfr_actions f player_idx h p1 p2 rest vt.2 with
      | none => none
      | some ut => some (-vt.1 :: ut.1, ut.2)).isSome = true
    rw [hut]
    rfl

theorem match_map_isSome (X : Option (List ℚ × Tree)) (f : List ℚ × Tree → ℚ × Tree)
    (hX : X.isSome = true) :
    (match X with | none => none | some ut => some (f ut)).isSome = true := by
  cases X with
  | none => simp at hX
  | some ut => rfl

theorem kuhn_cfr_isSome (fuel : ℕ) : ∀ (h : List Char), Kuhn.depth_ok fuel h = true →
    ∀ (cards : List ℕ) (p1 p2 : ℚ) (t : Tree),
    (Kuhn.cfr (fuel + 1) cards h p1 p2 t).isSome = true := by
  induction fuel with
  | zero =>
    intro h hok cards p1 p2 t
    have hterm : h ∈ Kuhn.TERMINAL_HISTORIES := by
      unfold Kuhn.depth_ok at hok
      exact of_decide_eq_true hok
    rw [kuhn_cfr_terminal 0 cards p1 p2 t h hterm]
    rfl
  | succ fuel ih =>
    intro h hok cards p1 p2 t
    by_cases hterm : h ∈ Kuhn.TERMINAL_HISTORIES
    · rw [kuhn_cfr_terminal (fuel + 1) cards p1 p2 t h hterm]
      rfl
    · have hall : ∀ c ∈ Kuhn.ACTIONS, Kuhn.depth_ok fuel (h ++ [c]) = true := by
        unfold Kuhn.depth_ok at hok
        rw [Bool.or_eq_true, decide_eq_true_eq] at hok
        rcases hok with hok | hok
        · exact absurd hok hterm
        · exact fun c hc => List.all_eq_true.mp hok c hc
      have hT : Kuhn.is_terminal (Nat.digitChar (cards.getD (h.length % 2) 0) :: h)
          = false := by
        unfold Kuhn.is_terminal
        simp only [List.drop_succ_cons, List.drop_zero, decide_eq_false_iff_not]
        exact hterm
      simp only [Kuhn.cfr]
      rw [hT]
      simp only [Bool.false_eq_true, if_false]
      apply match_map_isSome
      apply cfr_actions_isSome
      intro act sa t0 hmem
      obtain ⟨hact, _⟩ := List.mem_zip hmem
      obtain ⟨c, hc, rfl⟩ := List.mem_map.mp hact
      exact ih (h ++ [c]) (hall c hc) cards _ _ t0

theorem kuhn_cfr_root_isSome (cards : List ℕ) (p1 p2 : ℚ) (t : Tree) :
    (Kuhn.cfr 4 cards [] p1 p2 t).isSome = true :=
  kuhn_cfr_isSome 3 [] (by decide) cards p1 p2 t

theorem kuhn_run_state_isSome : ∀ i : ℕ, (Kuhn.run_state 4 i).isSome = true := by
  intro i
  induction i with
  | zero => rfl
  | succ i ih =>
    obtain ⟨ct, hct⟩ := Option.isSome_iff_exists.mp ih
    obtain ⟨vt, hvt⟩ := Option.isSome_iff_exists.mp
      (kuhn_cfr_root_isSome ct.1 1 1 ct.2)
    unfold Kuhn.run_state
    rw [hct]
    show (match Kuhn.cfr 4 ct.1 [] 1 1 ct.2 with
      | none => none
      | some vt => some (Kuhn.next_permutation ct.1, vt.2)).isSome = true
    rw [hvt]
    rfl

theorem kuhn_train_loop_eq : ∀ (n i : ℕ) (cards : List ℕ) (t : Tree) (util : ℚ),
    Kuhn.run_state 4 i = some (cards, t) →
    (Kuhn.train_loop 4 n cards util t).map Prod.fst =
      some (util + ∑ j ∈ Finset.range n, (Kuhn.iter_value 4 (i + j)).getD 0) := by
  intro n
  induction n with
  | zero =>
    intro i cards t util hrs
    simp [Kuhn.train_loop]
  | succ n ih =>
    intro i cards t util hrs
    obtain ⟨vt, hvt⟩ := Option.isSome_iff_exists.mp (kuhn_cfr_root_isSome cards 1 1 t)
    have hrsn : Kuhn.run_state 4 (i + 1) = some (Kuhn.next_permutation cards, vt.2) := by
      unfold Kuhn.run_state
      rw [hrs]
      show (match Kuhn.cfr 4 cards [] 1 1 t with
        | none => none
        | some vt => some (Kuhn.next_permutation cards, vt.2)) = _
      rw [hvt]
    have hiv : Kuhn.iter_value 4 i = some vt.1 := by
      unfold Kuhn.iter_value
      rw [hrs]
      show Option.map _ (Kuhn.cfr 4 cards [] 1 1 t) = _
      rw [hvt]
      rfl
    unfold Kuhn.train_loop
    rw [hvt, ih (i + 1) _ _ _ hrsn]
    congr 1
    rw [Finset.sum_range_succ']
    simp only [show ∀ x, i + 1 + x = i + (x + 1) from fun x => by omega, Nat.add_zero]
    rw [hiv]
    simp only [Option.getD_some]
    ring

theorem kuhn_train_props (T : ℕ) :
    (Kuhn.train 4 T).map Kuhn.TrainResult.returned = some none ∧
    (Kuhn.train 4 T).map Kuhn.TrainResult.util =
      some (∑ i ∈ Finset.range (T + 6), (Kuhn.iter_value 4 i).getD 0) := by
  have h0 : Kuhn.run_state 4 0 = some ([1, 2, 3], []) := rfl
  have hsum := kuhn_train_loop_eq (T + 6) 0 [1, 2, 3] [] 0 h0
  obtain ⟨ut, hut⟩ : ∃ ut, Kuhn.train_loop 4 (T + 6) [1, 2, 3] 0 [] = some ut := by
    cases hl : Kuhn.train_loop 4 (T + 6) [1, 2, 3] 0 [] with
    | none =>
      rw [hl] at hsum
      simp at hsum
    | some ut => exact ⟨ut, rfl⟩
  rw [hut] at hsum
  simp only [Option.map_some'] at hsum
  have hval : ut.1 = 0 + ∑ j ∈ Finset.range (T + 6), (Kuhn.iter_value 4 (0 + j)).getD 0 := by
    injection hsum
  unfold Kuhn.train
  rw [hut]
  refine ⟨rfl, ?_⟩
  show some ut.1 = _
  rw [hval]
  simp only [Nat.zero_add, zero_add]

/-- **C6 counterexample.**  The claim says `train(iterations)` returns the
average game value.  Evaluating the Kuhn solver at `T = 1`: training
completes, but the value handed back to the caller is nothing — the C++
function's return type is `void` — so no average game value (nor any other
value) is returned. -/
theorem claim6_counterexample :
    (Kuhn.train 4 1).map Kuhn.TrainResult.returned = some none :=
  (kuhn_train_props 1).1

/-- **C6 (amended).**  `train` populates the information-set store but does
not return the average game value: the Kuhn `Solver::train(T)` returns
nothing, internally accumulating into a discarded local variable the sum
over its `T + 6` iterations of the root traversal utilities (it is the Dudo
variant that prints `util / T`, but its first traversal never terminates, so
its train never completes for any positive iteration count). -/
theorem claim6_train_returns_nothing :
    (∀ T : ℕ, (Kuhn.train 4 T).map Kuhn.TrainResult.returned = some none ∧
      (Kuhn.train 4 T).map Kuhn.TrainResult.util =
        some (∑ i ∈ Finset.range (T + 6), (Kuhn.iter_value 4 i).getD 0)) ∧
    (∀ fuel T : ℕ, Dudo.train fuel (T + 1) Dudo.dice0 = none) := by
  refine ⟨kuhn_train_props, ?_⟩
  intro fuel T
  have hdiv : Dudo.cfr fuel Dudo.dice0 [] 1 1 [] = none := by
    apply dudo_cfr_diverges_aux fuel [] 1 1 []
    · intro k nd hfind
      simp [tree_find] at hfind
    · simp
  unfold Dudo.train Dudo.train_loop
  rw [hdiv]
  rfl

theorem zip_add_getD (p : ℚ) : ∀ (xs ys : List ℚ) (a : ℕ), xs.length = ys.length →
    (List.zipWith (fun s x => s + p * x) xs ys).getD a 0 =
      xs.getD a 0 + p * ys.getD a 0 := by
  intro xs
  induction xs with
  | nil =>
    intro ys a hlen
    cases ys with
    | nil => simp
    | cons y ys => simp at hlen
  | cons x xs ih =>
    intro ys a hlen
    cases ys with
    | nil => simp at hlen
    | cons y ys =>
      cases a with
      | zero => simp
      | succ a =>
        simp only [List.zipWith_cons_cons, List.getD_cons_succ]
        exact ih ys a (by simpa using hlen)

theorem zip_plus_getD : ∀ (xs ys : List ℚ) (a : ℕ), xs.length = ys.length →
    (List.zipWith (fun s x => s + x) xs ys).getD a 0 = xs.getD a 0 + ys.getD a 0 := by
  intro xs
  induction xs with
  | nil =>
    intro ys a hlen
    cases ys with
    | nil => simp
    | cons y ys => simp at hlen
  | cons x xs ih =>
    intro ys a hlen
    cases ys with
    | nil => simp at hlen
    | cons y ys =>
      cases a with
      | zero => simp
      | succ a =>
        simp only [List.zipWith_cons_cons, List.getD_cons_succ]
        exact ih ys a (by simpa using hlen)

theorem getD_nonneg_of_forall : ∀ (l : List ℚ), (∀ x ∈ l, 0 ≤ x) → ∀ a, 0 ≤ l.getD a 0 := by
  intro l
  induction l with
  | nil => intro _ a; simp
  | cons x xs ih =>
    intro hl a
    cases a with
    | zero => simpa using hl x (List.mem_cons_self x xs)
    | succ a =>
      simp only [List.getD_cons_succ]
      exact ih (fun y hy => hl y (List.mem_cons_of_mem x hy)) a

theorem NodeLe_refl (nd : Node) : NodeLe nd nd :=
  ⟨rfl, rfl, rfl, fun _ => le_refl _⟩

theorem NodeLe_trans {a b c : Node} (hab : NodeLe a b) (hbc : NodeLe b c) : NodeLe a c :=
  ⟨hbc.1.trans hab.1, hbc.2.1.trans hab.2.1, hbc.2.2.1.trans hab.2.2.1,
   fun x => (hab.2.2.2 x).trans (hbc.2.2.2 x)⟩

theorem TreeLe_refl (t : Tree) : TreeLe t t :=
  fun k nd h => ⟨nd, h, NodeLe_refl nd⟩

theorem TreeLe_trans {a b c : Tree} (hab : TreeLe a b) (hbc : TreeLe b c) : TreeLe a c := by
  intro k nd h
  obtain ⟨nd2, h2, hle2⟩ := hab k nd h
  obtain ⟨nd3, h3, hle3⟩ := hbc k nd2 h2
  exact ⟨nd3, h3, NodeLe_trans hle2 hle3⟩

theorem get_strategy_sum_getD (p : ℚ) (nd : Node) (hwf : NodeWF nd) (a : ℕ) :
    (get_strategy p nd).2.strategy_sum.getD a 0 =
      nd.strategy_sum.getD a 0 + p * (get_strategy p nd).1.getD a 0 := by
  have hlen : nd.strategy_sum.length = (get_strategy p nd).1.length := by
    rw [(get_strategy_shape p nd hwf).2.2, hwf.2.2]
  show (List.zipWith (fun s x => s + p * x) nd.strategy_sum (get_strategy p nd).1).getD a 0 = _
  exact zip_add_getD p nd.strategy_sum (get_strategy p nd).1 a hlen

theorem get_strategy_le (p : ℚ) (nd : Node) (hwf : NodeWF nd) (hp : 0 ≤ p) :
    NodeLe nd (get_strategy p nd).2 := by
  obtain ⟨hWF2, hn, hslen⟩ := get_strategy_shape p nd hwf
  refine ⟨hn, rfl, ?_, ?_⟩
  · rw [hWF2.2.2, hn, hwf.2.2]
  · intro a
    rw [get_strategy_sum_getD p nd hwf a]
    have hnn : 0 ≤ (get_strategy p nd).1.getD a 0 :=
      getD_nonneg_of_forall _ (get_strategy_fst_nonneg p nd) a
    nlinarith

theorem update_regret_le (a : ℕ) (v : ℚ) (nd : Node) : NodeLe nd (update_regret a v nd) := by
  refine ⟨rfl, ?_, rfl, fun _ => le_refl _⟩
  show (nd.regret_sum.set a _).length = _
  rw [List.length_set]

theorem update_regret_wf (a : ℕ) (v : ℚ) (nd : Node) (hwf : NodeWF nd) :
    NodeWF (update_regret a v nd) := by
  refine ⟨?_, hwf.2.1, hwf.2.2⟩
  show (nd.regret_sum.set a _).length = _
  rw [List.length_set]
  exact hwf.1

theorem update_regrets_le (reach node_util : ℚ) :
    ∀ (us : List ℚ) (a : ℕ) (nd : Node),
      NodeLe nd (update_regrets reach node_util us a nd) ∧
      (NodeWF nd → NodeWF (update_regrets reach node_util us a nd)) := by
  intro us
  induction us with
  | nil => intro a nd; exact ⟨NodeLe_refl nd, fun h => h⟩
  | cons u rest ih =>
    intro a nd
    unfold update_regrets
    constructor
    · exact NodeLe_trans (update_regret_le a (reach * (u - node_util)) nd)
        (ih (a + 1) (update_regret a (reach * (u - node_util)) nd)).1
    · intro hwf
      exact (ih (a + 1) _).2 (update_regret_wf a (reach * (u - node_util)) nd hwf)

theorem get_node_find (mk : List Char → Node) (t : Tree) (info : List Char) :
    tree_find ((get_node mk t info).2) info = some ((get_node mk t info).1) := by
  unfold get_node
  cases hfind : tree_find t info with
  | some nd => simpa using hfind
  | none =>
    show tree_find ((info, mk info) :: t) info = _
    unfold tree_find
    rw [if_pos rfl]

theorem get_node_treele (mk : List Char → Node) (t : Tree) (info : List Char) :
    TreeLe t ((get_node mk t info).2) := by
  unfold get_node
  cases hfind : tree_find t info with
  | some nd =>
    simp only [hfind]
    exact TreeLe_refl t
  | none =>
    simp only [hfind]
    intro k nd2 hk
    have hne : info ≠ k := by
      intro he
      rw [he] at hfind
      rw [hfind] at hk
      exact Option.noConfusion hk
    refine ⟨nd2, ?_, NodeLe_refl nd2⟩
    show tree_find ((info, mk info) :: t) k = some nd2
    unfold tree_find
    rw [if_neg hne]
    exact hk

theorem get_node_treewf (mk : List Char → Node) (t : Tree) (info : List Char)
    (hwf : TreeWF t) (hmk : ∀ i, NodeWF (mk i)) : TreeWF ((get_node mk t info).2) := by
  unfold get_node
  cases hfind : tree_find t info with
  | some nd =>
    simp only [hfind]
    exact hwf
  | none =>
    simp only [hfind]
    intro k nd2 hk
    unfold tree_find at hk
    by_cases hke : info = k
    · rw [if_pos hke] at hk
      obtain rfl : mk info = nd2 := by injection hk
      exact hmk info
    · rw [if_neg hke] at hk
      exact hwf k nd2 hk

theorem get_node_node_wf (mk : List Char → Node) (t : Tree) (info : List Char)
    (hwf : TreeWF t) (hmk : ∀ i, NodeWF (mk i)) : NodeWF ((get_node mk t info).1) :=
  (get_node_treewf mk t info hwf hmk) info _ (get_node_find mk t info)

theorem set_node_treele (t : Tree) (info : List Char) (nd nd2 : Node)
    (hfind : tree_find t info = some nd) (hle : NodeLe nd nd2) :
    TreeLe t (set_node t info nd2) := by
  intro k nd3 hk
  unfold set_node tree_find
  by_cases hke : info = k
  · rw [if_pos hke]
    subst hke
    rw [hfind] at hk
    obtain rfl : nd = nd3 := by injection hk
    exact ⟨nd2, rfl, hle⟩
  · rw [if_neg hke]
    exact ⟨nd3, hk, NodeLe_refl nd3⟩

theorem set_node_treewf (t : Tree) (info : List Char) (nd : Node)
    (hwf : TreeWF t) (hnd : NodeWF nd) : TreeWF (set_node t info nd) := by
  intro k nd2 hk
  unfold set_node tree_find at hk
  by_cases hke : info = k
  · rw [if_pos hke] at hk
    obtain rfl : nd = nd2 := by injection hk
    exact hnd
  · rw [if_neg hke] at hk
    exact hwf k nd2 hk

theorem kuhn_mkNode_wf (info : List Char) : NodeWF (Kuhn.mkNode info) := by
  unfold Kuhn.mkNode NodeWF
  simp

theorem match_map_eq_some {X : Option (List ℚ × Tree)} {f : List ℚ × Tree → ℚ × Tree}
    {y : ℚ × Tree}
    (h : (match X with | none => none | some ut => some (f ut)) = some y) :
    ∃ ut, X = some ut ∧ y = f ut := by
  cases X with
  | none => exact Option.noConfusion h
  | some ut => exact ⟨ut, rfl, (Option.some.inj h).symm⟩

theorem cfr_actions_mono (f : List Char → ℚ → ℚ → Tree → Option (ℚ × Tree))
    (player_idx : ℕ) (h : List Char) (p1 p2 : ℚ) (hp1 : 0 ≤ p1) (hp2 : 0 ≤ p2)
    (hf : ∀ h2 q1 q2 t v t2, 0 ≤ q1 → 0 ≤ q2 → TreeWF t → f h2 q1 q2 t = some (v, t2) →
      TreeLe t t2 ∧ TreeWF t2) :
    ∀ (l : List (List Char × ℚ)) (t : Tree) (ut : List ℚ × Tree),
      (∀ act sa, (act, sa) ∈ l → 0 ≤ sa) → TreeWF t →
      cfr_actions f player_idx h p1 p2 l t = some ut → TreeLe t ut.2 ∧ TreeWF ut.2 := by
  intro l
  induction l with
  | nil =>
    intro t ut _ hwf heq
    unfold cfr_actions at heq
    obtain rfl : (([], t) : List ℚ × Tree) = ut := by injection heq
    exact ⟨TreeLe_refl t, hwf⟩
  | cons a rest ih =>
    intro t ut hsa hwf heq
    obtain ⟨act, sa⟩ := a
    unfold cfr_actions at heq
    cases hvt : f (h ++ act) (if player_idx = 0 then p1 * sa else p1)
        (if player_idx = 0 then p2 else p2 * sa) t with
    | none =>
      rw [hvt] at heq
      exact Option.noConfusion heq
    | some vt =>
      rw [hvt] at heq
      replace heq : (match cfr_actions f player_idx h p1 p2 rest vt.2 with
        | none => none
        | some ut2 => some ((-vt.1) :: ut2.1, ut2.2)) = some ut := heq
      cases hut2 : cfr_actions f player_idx h p1 p2 rest vt.2 with
      | none =>
        rw [hut2] at heq
        exact Option.noConfusion heq
      | some ut2 =>
        rw [hut2] at heq
        obtain rfl : (((-vt.1) :: ut2.1, ut2.2) : List ℚ × Tree) = ut := by injection heq
        have hq1 : 0 ≤ (if player_idx = 0 then p1 * sa else p1) := by
          split_ifs
          · exact mul_nonneg hp1 (hsa act sa (List.mem_cons_self _ _))
          · exact hp1
        have hq2 : 0 ≤ (if player_idx = 0 then p2 else p2 * sa) := by
          split_ifs
          · exact hp2
          · exact mul_nonneg hp2 (hsa act sa (List.mem_cons_self _ _))
        obtain ⟨hle1, hwf1⟩ := hf (h ++ act) _ _ t vt.1 vt.2 hq1 hq2 hwf (by rw [hvt])
        obtain ⟨hle2, hwf2⟩ := ih vt.2 ut2
          (fun a2 s2 hm => hsa a2 s2 (List.mem_cons_of_mem _ hm)) hwf1 hut2
        exact ⟨TreeLe_trans hle1 hle2, hwf2⟩

theorem kuhn_cfr_mono : ∀ (fuel : ℕ) (cards : List ℕ) (h : List Char) (p1 p2 : ℚ)
    (t : Tree) (v : ℚ) (t2 : Tree), 0 ≤ p1 → 0 ≤ p2 → TreeWF t →
    Kuhn.cfr fuel cards h p1 p2 t = some (v, t2) → TreeLe t t2 ∧ TreeWF t2 := by
  intro fuel
  induction fuel with
  | zero =>
    intro cards h p1 p2 t v t2 _ _ _ heq
    exact Option.noConfusion heq
  | succ fuel ih =>
    intro cards h p1 p2 t v t2 hp1 hp2 hwf heq
    have hle0 : TreeLe t ((get_node Kuhn.mkNode t
        (Nat.digitChar (cards.getD (h.length % 2) 0) :: h)).2) :=
      get_node_treele Kuhn.mkNode t _
    have hwf0 : TreeWF ((get_node Kuhn.mkNode t
        (Nat.digitChar (cards.getD (h.length % 2) 0) :: h)).2) :=
      get_node_treewf Kuhn.mkNode t _ hwf kuhn_mkNode_wf
    simp only [Kuhn.cfr] at heq
    by_cases hT : Kuhn.is_terminal (Nat.digitChar (cards.getD (h.length % 2) 0) :: h) = true
    · rw [if_pos hT] at heq
      have hU : Kuhn.get_utility cards (Nat.digitChar (cards.getD (h.length % 2) 0) :: h) =
          some (Kuhn.utility_raw cards
            ((Nat.digitChar (cards.getD (h.length % 2) 0) :: h).drop 1)) := by
        unfold Kuhn.get_utility
        rw [if_pos hT]
      rw [hU] at heq
      replace heq : some (Kuhn.utility_raw cards
          ((Nat.digitChar (cards.getD (h.length % 2) 0) :: h).drop 1),
          (get_node Kuhn.mkNode t
            (Nat.digitChar (cards.getD (h.length % 2) 0) :: h)).2) = some (v, t2) := heq
      have ht2 : (get_node Kuhn.mkNode t
          (Nat.digitChar (cards.getD (h.length % 2) 0) :: h)).2 = t2 :=
        congrArg Prod.snd (Option.some.inj heq)
      rw [ht2] at hle0 hwf0
      exact ⟨hle0, hwf0⟩
    · rw [if_neg hT] at heq
      obtain ⟨ut, hca, hy⟩ := match_map_eq_some heq
      have hreach : 0 ≤ (if h.length % 2 = 0 then p2 else p1) := by
        split_ifs
        · exact hp2
        · exact hp1
      have hnodewf : NodeWF ((get_node Kuhn.mkNode t
          (Nat.digitChar (cards.getD (h.length % 2) 0) :: h)).1) :=
        get_node_node_wf Kuhn.mkNode t _ hwf kuhn_mkNode_wf
      have hle1 : TreeLe ((get_node Kuhn.mkNode t
          (Nat.digitChar (cards.getD (h.length % 2) 0) :: h)).2)
          (set_node (get_node Kuhn.mkNode t
            (Nat.digitChar (cards.getD (h.length % 2) 0) :: h)).2
            (Nat.digitChar (cards.getD (h.length % 2) 0) :: h)
            (get_strategy (if h.length % 2 = 0 then p2 else p1)
              ((get_node Kuhn.mkNode t
                (Nat.digitChar (cards.getD (h.length % 2) 0) :: h)).1)).2) :=
        set_node_treele _ _ _ _ (get_node_find Kuhn.mkNode t _)
          (get_strategy_le _ _ hnodewf hreach)
      have hwf1 : TreeWF (set_node (get_node Kuhn.mkNode t
          (Nat.digitChar (cards.getD (h.length % 2) 0) :: h)).2
          (Nat.digitChar (cards.getD (h.length % 2) 0) :: h)
          (get_strategy (if h.length % 2 = 0 then p2 else p1)
            ((get_node Kuhn.mkNode t
              (Nat.digitChar (cards.getD (h.length % 2) 0) :: h)).1)).2) :=
        set_node_treewf _ _ _ hwf0
          (get_strategy_shape _ _ hnodewf).1
      obtain ⟨hle2, hwf2⟩ := cfr_actions_mono
        (fun h2 q1 q2 t0 => Kuhn.cfr fuel cards h2 q1 q2 t0) (h.length % 2) h p1 p2 hp1 hp2
        (fun h2 q1 q2 t0 v0 t02 hq1 hq2 hwft0 heq0 =>
          ih cards h2 q1 q2 t0 v0 t02 hq1 hq2 hwft0 heq0)
        _ _ ut
        (by
          intro act2 sa2 hm
          obtain ⟨_, hsa2⟩ := List.of_mem_zip hm
          exact (get_strategy_fst_nonneg _ _) sa2 hsa2)
        hwf1 hca
      have hfind2 : tree_find (set_node (get_node Kuhn.mkNode t
          (Nat.digitChar (cards.getD (h.length % 2) 0) :: h)).2
          (Nat.digitChar (cards.getD (h.length % 2) 0) :: h)
          (get_strategy (if h.length % 2 = 0 then p2 else p1)
            ((get_node Kuhn.mkNode t
              (Nat.digitChar (cards.getD (h.length % 2) 0) :: h)).1)).2)
          (Nat.digitChar (cards.getD (h.length % 2) 0) :: h) =
          some (get_strategy (if h.length % 2 = 0 then p2 else p1)
            ((get_node Kuhn.mkNode t
              (Nat.digitChar (cards.getD (h.length % 2) 0) :: h)).1)).2 :=
        tree_find_set_self _ _ _
      obtain ⟨found, hfound, hlef⟩ := hle2 _ _ hfind2
      have hfoundwf : NodeWF found := hwf2 _ found hfound
      have hgetd : (tree_find ut.2 (Nat.digitChar (cards.getD (h.length % 2) 0) :: h)).getD
          (get_strategy (if h.length % 2 = 0 then p2 else p1)
            ((get_node Kuhn.mkNode t
              (Nat.digitChar (cards.getD (h.length % 2) 0) :: h)).1)).2 = found := by
        rw [hfound]
        rfl
      have ht2 : t2 = set_node ut.2 (Nat.digitChar (cards.getD (h.length % 2) 0) :: h)
          (update_regrets (if h.length % 2 = 0 then p2 else p1)
            (List.zipWith (fun x y => x * y)
              (get_strategy (if h.length % 2 = 0 then p2 else p1)
                ((get_node Kuhn.mkNode t
                  (Nat.digitChar (cards.getD (h.length % 2) 0) :: h)).1)).1 ut.1).sum
            ut.1 0 found) := by
        have := congrArg Prod.snd hy
        simp only at this
        rw [this, hgetd]
      have hle3 : TreeLe ut.2 t2 := by
        rw [ht2]
        exact set_node_treele _ _ found _ hfound
          (update_regrets_le _ _ ut.1 0 found).1
      have hwf3 : TreeWF t2 := by
        rw [ht2]
        exact set_node_treewf _ _ _ hwf2 ((update_regrets_le _ _ ut.1 0 found).2 hfoundwf)
      exact ⟨TreeLe_trans (TreeLe_trans (TreeLe_trans hle0 hle1) hle2) hle3, hwf3⟩

theorem resize_fill_id (v : List ℚ) (n : ℕ) (h : v.length = n) :
    War.resize_fill v n = v := by
  unfold War.resize_fill
  subst h
  rw [List.take_length, Nat.sub_self]
  simp

theorem war_reset_id (st : War.WarState) (h : War.WarWF st) :
    War.reset_arrays st = st := by
  obtain ⟨h1, h2, h3, h4, h5, h6⟩ := h
  unfold War.reset_arrays
  cases st
  simp only at h1 h2 h3 h4 h5 h6
  rw [resize_fill_id _ _ h1, resize_fill_id _ _ h2, resize_fill_id _ _ h3,
    resize_fill_id _ _ h4, resize_fill_id _ _ h5, resize_fill_id _ _ h6]

theorem war_update_nonneg (sum r : List ℚ) :
    ∀ x ∈ (War.update_strategy sum r).1, 0 ≤ x := by
  intro x hx
  unfold War.update_strategy at hx
  simp only at hx
  split at hx
  · obtain ⟨q, hq, rfl⟩ := List.mem_map.mp hx
    obtain ⟨w, _, rfl⟩ := List.mem_map.mp hq
    refine div_nonneg ?_ (le_of_lt (by assumption))
    split_ifs with hw
    · exact le_of_lt hw
    · exact le_refl 0
  · rw [List.eq_of_mem_replicate hx]
    positivity

theorem war_update_len (sum r : List ℚ) (hr : r.length = War.NUM_ACTIONS) :
    (War.update_strategy sum r).1.length = War.NUM_ACTIONS := by
  unfold War.update_strategy
  simp only
  split
  · simp [hr]
  · simp

theorem war_step_props (a0 a1 : ℕ) (st : War.WarState) (hwf : War.WarWF st) :
    War.WarWF (War.train_step a0 a1 st) ∧
    (∀ j, st.sum0.getD j 0 ≤ (War.train_step a0 a1 st).sum0.getD j 0) ∧
    (∀ j, st.sum1.getD j 0 ≤ (War.train_step a0 a1 st).sum1.getD j 0) := by
  obtain ⟨h1, h2, h3, h4, h5, h6⟩ := hwf
  have hreset := war_reset_id st ⟨h1, h2, h3, h4, h5, h6⟩
  have hr0 : ((List.range War.NUM_ACTIONS).map
      (fun a => (War.reset_arrays st).r0.getD a 0 +
        ((War.utility a a1 - War.utility a0 a1 : ℤ) : ℚ))).length = War.NUM_ACTIONS := by
    simp
  have hr1 : ((List.range War.NUM_ACTIONS).map
      (fun a => (War.reset_arrays st).r1.getD a 0 +
        ((War.utility a a0 - War.utility a1 a0 : ℤ) : ℚ))).length = War.NUM_ACTIONS := by
    simp
  have es0 : (War.train_step a0 a1 st).s0 =
      (War.update_strategy (War.reset_arrays st).sum0
        ((List.range War.NUM_ACTIONS).map
          (fun a => (War.reset_arrays st).r0.getD a 0 +
            ((War.utility a a1 - War.utility a0 a1 : ℤ) : ℚ)))).1 := rfl
  have es1 : (War.train_step a0 a1 st).s1 =
      (War.update_strategy (War.reset_arrays st).sum1
        ((List.range War.NUM_ACTIONS).map
          (fun a => (War.reset_arrays st).r1.getD a 0 +
            ((War.utility a a0 - War.utility a1 a0 : ℤ) : ℚ)))).1 := rfl
  have esum0 : (War.train_step a0 a1 st).sum0 =
      List.zipWith (fun acc x => acc + x) (War.reset_arrays st).sum0
        (War.update_strategy (War.reset_arrays st).sum0
          ((List.range War.NUM_ACTIONS).map
            (fun a => (War.reset_arrays st).r0.getD a 0 +
              ((War.utility a a1 - War.utility a0 a1 : ℤ) : ℚ)))).1 := rfl
  have esum1 : (War.train_step a0 a1 st).sum1 =
      List.zipWith (fun acc x => acc + x) (War.reset_arrays st).sum1
        (War.update_strategy (War.reset_arrays st).sum1
          ((List.range War.NUM_ACTIONS).map
            (fun a => (War.reset_arrays st).r1.getD a 0 +
              ((War.utility a a0 - War.utility a1 a0 : ℤ) : ℚ)))).1 := rfl
  have er0 : (War.train_step a0 a1 st).r0 =
      (List.range War.NUM_ACTIONS).map
        (fun a => (War.reset_arrays st).r0.getD a 0 +
          ((War.utility a a1 - War.utility a0 a1 : ℤ) : ℚ)) := rfl
  have er1 : (War.train_step a0 a1 st).r1 =
      (List.range War.NUM_ACTIONS).map
        (fun a => (War.reset_arrays st).r1.getD a 0 +
          ((War.utility a a0 - War.utility a1 a0 : ℤ) : ℚ)) := rfl
  refine ⟨⟨?_, ?_, ?_, ?_, ?_, ?_⟩, ?_, ?_⟩
  · rw [es0, war_update_len _ _ hr0]
  · rw [es1, war_update_len _ _ hr1]
  · rw [esum0, List.length_zipWith, war_update_len _ _ hr0, hreset, h3, min_self]
  · rw [esum1, List.length_zipWith, war_update_len _ _ hr1, hreset, h4, min_self]
  · rw [er0, hr0]
  · rw [er1, hr1]
  · intro j
    rw [esum0, zip_plus_getD _ _ j (by rw [war_update_len _ _ hr0, hreset, h3]), hreset]
    have := getD_nonneg_of_forall _ (war_update_nonneg (War.reset_arrays st).sum0
      ((List.range War.NUM_ACTIONS).map
        (fun a => (War.reset_arrays st).r0.getD a 0 +
          ((War.utility a a1 - War.utility a0 a1 : ℤ) : ℚ)))) j
    rw [hreset] at this
    linarith
  · intro j
    rw [esum1, zip_plus_getD _ _ j (by rw [war_update_len _ _ hr1, hreset, h4]), hreset]
    have := getD_nonneg_of_forall _ (war_update_nonneg (War.reset_arrays st).sum1
      ((List.range War.NUM_ACTIONS).map
        (fun a => (War.reset_arrays st).r1.getD a 0 +
          ((War.utility a a0 - War.utility a1 a0 : ℤ) : ℚ)))) j
    rw [hreset] at this
    linarith

theorem war_train_mono : ∀ (choices : List (ℕ × ℕ)) (st : War.WarState), War.WarWF st →
    War.WarWF (War.train choices st) ∧
    (∀ j, st.sum0.getD j 0 ≤ (War.train choices st).sum0.getD j 0) ∧
    (∀ j, st.sum1.getD j 0 ≤ (War.train choices st).sum1.getD j 0) := by
  intro choices
  induction choices with
  | nil =>
    intro st h
    exact ⟨h, fun j => le_refl _, fun j => le_refl _⟩
  | cons c rest ih =>
    intro st h
    obtain ⟨hwf2, hm0, hm1⟩ := war_step_props c.1 c.2 st h
    obtain ⟨ihwf, ih0, ih1⟩ := ih (War.train_step c.1 c.2 st) hwf2
    exact ⟨ihwf, fun j => (hm0 j).trans (ih0 j), fun j => (hm1 j).trans (ih1 j)⟩

/-- **C9.**  Within a training run `regret_sum` and `strategy_sum` are
append-only — no operation resets or shrinks them — and every
`strategy_sum` entry is monotonically non-decreasing over time:
(i) through any Kuhn traversal with non-negative reach probabilities, every
stored node keeps its action count and array lengths and its `strategy_sum`
entries never decrease; (ii) each `get_strategy` call adds exactly
`p * strategy[a]`, both factors non-negative; (iii) `update_regret` only
adds `v` into one `regret_sum` entry, leaving `strategy_sum` and all
lengths untouched; (iv) war.cc's `reset_arrays` is the identity on
already-sized arrays, so nothing is reset mid-run, and (v)-(vi) each Blotto
training step (and hence any training run) keeps the arrays sized and only
grows the cumulative strategy sums. -/
theorem claim9_append_only :
    (∀ (fuel : ℕ) (cards : List ℕ) (h : List Char) (p1 p2 : ℚ) (t : Tree) (v : ℚ)
      (t2 : Tree), 0 ≤ p1 → 0 ≤ p2 → TreeWF t →
      Kuhn.cfr fuel cards h p1 p2 t = some (v, t2) → TreeLe t t2) ∧
    (∀ (p : ℚ) (nd : Node), NodeWF nd → 0 ≤ p →
      NodeLe nd (get_strategy p nd).2 ∧
      ∀ a, (get_strategy p nd).2.strategy_sum.getD a 0 =
        nd.strategy_sum.getD a 0 + p * (get_strategy p nd).1.getD a 0 ∧
        0 ≤ (get_strategy p nd).1.getD a 0) ∧
    (∀ (a : ℕ) (v : ℚ) (nd : Node),
      (update_regret a v nd).strategy_sum = nd.strategy_sum ∧
      (update_regret a v nd).regret_sum.length = nd.regret_sum.length ∧
      (a < nd.regret_sum.length →
        (update_regret a v nd).regret_sum.getD a 0 = nd.regret_sum.getD a 0 + v)) ∧
    (∀ st : War.WarState, War.WarWF st → War.reset_arrays st = st) ∧
    (∀ (a0 a1 : ℕ) (st : War.WarState), War.WarWF st →
      War.WarWF (War.train_step a0 a1 st) ∧
      ∀ j, st.sum0.getD j 0 ≤ (War.train_step a0 a1 st).sum0.getD j 0 ∧
        st.sum1.getD j 0 ≤ (War.train_step a0 a1 st).sum1.getD j 0) ∧
    (∀ (choices : List (ℕ × ℕ)) (st : War.WarState), War.WarWF st →
      ∀ j, st.sum0.getD j 0 ≤ (War.train choices st).sum0.getD j 0 ∧
        st.sum1.getD j 0 ≤ (War.train choices st).sum1.getD j 0) := by
  refine ⟨?_, ?_, ?_, war_reset_id, ?_, ?_⟩
  · intro fuel cards h p1 p2 t v t2 hp1 hp2 hwf heq
    exact (kuhn_cfr_mono fuel cards h p1 p2 t v t2 hp1 hp2 hwf heq).1
  · intro p nd hwf hp
    refine ⟨get_strategy_le p nd hwf hp, ?_⟩
    intro a
    exact ⟨get_strategy_sum_getD p nd hwf a,
      getD_nonneg_of_forall _ (get_strategy_fst_nonneg p nd) a⟩
  · intro a v nd
    refine ⟨rfl, ?_, ?_⟩
    · show (nd.regret_sum.set a _).length = _
      rw [List.length_set]
    · intro ha
      show (nd.regret_sum.set a (nd.regret_sum.getD a 0 + v)).getD a 0 = _
      rw [List.getD_eq_getElem _ _ (by rw [List.length_set]; exact ha)]
      rw [List.getElem_set_self]
  · intro a0 a1 st hwf
    obtain ⟨h1, h2, h3⟩ := war_step_props a0 a1 st hwf
    exact ⟨h1, fun j => ⟨h2 j, h3 j⟩⟩
  · intro choices st hwf j
    obtain ⟨_, h0, h1⟩ := war_train_mono choices st hwf
    exact ⟨h0 j, h1 j⟩

theorem claim9_append_only_witness :
    ((0 : ℚ) ≤ 1 ∧ TreeWF [] ∧
      Kuhn.cfr 1 [1, 2, 3] ['c', 'c'] 1 1 [] =
        some (-1, [(['1', 'c', 'c'], Kuhn.mkNode ['1', 'c', 'c'])]) ∧
      TreeLe [] [(['1', 'c', 'c'], Kuhn.mkNode ['1', 'c', 'c'])]) ∧
    (NodeWF witness_node ∧ NodeLe witness_node (get_strategy 1 witness_node).2) ∧
    ((update_regret 0 5 witness_node).strategy_sum = witness_node.strategy_sum) ∧
    (War.WarWF war_witness_state ∧ War.reset_arrays war_witness_state = war_witness_state) ∧
    (∀ j, war_witness_state.sum0.getD j 0 ≤
      (War.train [(0, 1)] war_witness_state).sum0.getD j 0) := by
  have hwfnil : TreeWF ([] : Tree) := fun _ _ hk => Option.noConfusion hk
  have hwfnode : NodeWF witness_node := ⟨rfl, rfl, rfl⟩
  have hwfwar : War.WarWF war_witness_state := by
    refine ⟨?_, ?_, ?_, ?_, ?_, ?_⟩ <;> simp [war_witness_state]
  refine ⟨⟨zero_le_one, hwfnil, rfl, ?_⟩, ⟨hwfnode, ?_⟩, ?_, ⟨hwfwar, ?_⟩, ?_⟩
  · exact claim9_append_only.1 1 [1, 2, 3] ['c', 'c'] 1 1 [] (-1)
      [(['1', 'c', 'c'], Kuhn.mkNode ['1', 'c', 'c'])] zero_le_one zero_le_one hwfnil rfl
  · exact (claim9_append_only.2.1 1 witness_node hwfnode zero_le_one).1
  · exact (claim9_append_only.2.2.1 0 5 witness_node).1
  · exact claim9_append_only.2.2.2.1 war_witness_state hwfwar
  · intro j
    exact (claim9_append_only.2.2.2.2.2 [(0, 1)] war_witness_state hwfwar j).1

end GameTheory
